import Mathlib

/-!
# Verification of the Turbospectrum_NLTE driver scripts

A shallow embedding in Lean 4 of the Python driver code of this repository,
together with theorems about the embedded functions.

Embedded code:

* `scripts/turbospectrum_utils.py` — `read_spectrum`: the two-mode
  (Flux / Intensity) spectrum-file reader.
* `scripts/run_turbospectrum.py` — `ModelInterpolator.find_bracketing_models`
  (with its local helper `get_bracket`), the front part of
  `ModelInterpolator.interpolate`, `get_model_filename`, and the
  skip-if-output-exists gate of `run_single_synthesis`.
* `scripts/generate_grid.py` — the `full` and `latin_hypercube` branches of
  `_sample_parameter_space`.

Modelling conventions, used throughout:

* Python floats are modelled as rationals (`ℚ`); the numeric literals of the
  source (`0.01`, …) become the corresponding rational literals.
* A raised-and-not-caught Python exception is modelled by the `exc` value of
  `PyResult` (or by `none` where the function is embedded into `Option`);
  caught exceptions follow the source's `except` handlers.
* A whitespace-split Python text line is modelled as a `List Tok`: each token
  is either `Tok.num q` (a token accepted by `float()`, of value `q`) or
  `Tok.str s` (a token on which `float()` raises `ValueError`).  Since a
  token is a maximal whitespace-free run, a whitespace-free pattern such as
  `"mu-points"` is a substring of the raw line exactly when it is a substring
  of one of its tokens, and tokens accepted by `float()` never contain it.
* Python dicts keyed by mu value are modelled as functions `ℚ → List ℚ`
  (initialised to `[]`, updated pointwise); the source only ever reads keys
  it created.
-/

namespace TurboSpec

/-- Outcome of a Python call: a returned value, or an uncaught exception. -/
inductive PyResult (α : Type) where
  | ret (val : α)
  | exc
deriving DecidableEq, Repr

/-! ## `scripts/turbospectrum_utils.py` — `read_spectrum` -/

/-- One whitespace-delimited token of a spectrum-file line: `num q` if Python
`float()` accepts it (with value `q`), `str s` if `float()` raises. -/
inductive Tok where
  | num (q : ℚ)
  | str (s : String)
deriving DecidableEq

/-- A line of the file, as `line.split()` produces it: its token list.  A
blank line (one with `line.strip()` empty) has no tokens. -/
abbrev PyLine := List Tok

/-- `line.strip().startswith('#')`: the line is non-blank and its first
token's first character is `#` (a token accepted by `float()` never
starts with `#`). -/
def isCommentLine : PyLine → Bool
  | Tok.str s :: _ => s.data.head? == some '#'
  | _ => false

/-- Does `s` start with the pattern `p` (character lists)? -/
def startsWithChars : List Char → List Char → Bool
  | [], _ => true
  | _ :: _, [] => false
  | p :: ps, c :: cs => p == c && startsWithChars ps cs

/-- Does `s` contain the pattern `p` as a contiguous substring? -/
def charsHaveSub (p : List Char) : List Char → Bool
  | [] => p.isEmpty
  | c :: cs => startsWithChars p (c :: cs) || charsHaveSub p cs

/-- `"mu-points" in line` (Python substring test on the raw line): some
token has `"mu-points"` as a substring.  Since tokens are maximal
whitespace-free runs and the pattern has no whitespace, this agrees with
the substring test on the raw line; a token accepted by `float()` never
contains it. -/
def containsMarker (l : PyLine) : Bool :=
  l.any fun t =>
    match t with
    | Tok.num _ => false
    | Tok.str s => charsHaveSub "mu-points".data s.data

/-- The loop of lines 30–35 of `turbospectrum_utils.py`: scan the lines,
remembering the most recent comment line in `header_line` and breaking at
the first non-comment non-blank line, whose index becomes `data_start`;
if no such line exists `data_start` keeps its initial value `0`. -/
def headerScan : List PyLine → Option PyLine → ℕ → Option PyLine × ℕ
  | [], h, _ => (h, 0)
  | l :: rest, h, i =>
    if isCommentLine l then headerScan rest (some l) (i + 1)
    else if l.isEmpty then headerScan rest h (i + 1)
    else (h, i)

/-- `[float(x) for x in parts]`: all values if every token converts,
`none` (an uncaught `ValueError`) otherwise. -/
def floatAll : List Tok → Option (List ℚ)
  | [] => some []
  | Tok.num q :: rest => (floatAll rest).map (fun qs => q :: qs)
  | Tok.str _ :: _ => none

/-- Is this token exactly the string `mu-points` (the `parts.index` test)? -/
def isMuTok : Tok → Bool
  | Tok.str s => s == "mu-points"
  | Tok.num _ => false

/-- Lines 44–48: `parts.index("mu-points")` then `float` of every later
token.  If the marker is a substring but not an exact token, `mu_points`
stays `[]`; a non-numeric trailing token raises (uncaught). -/
def readMuPoints (l : PyLine) : Option (List ℚ) :=
  match l.findIdx? isMuTok with
  | some idx => floatAll (l.drop (idx + 1))
  | none => some []

/-- The parser's accumulating state: the three common-column lists and the
two per-mu dictionaries (modelled as functions, empty at every point). -/
structure ParseState where
  wl : List ℚ
  fn : List ℚ
  fa : List ℚ
  iAbs : ℚ → List ℚ
  iNorm : ℚ → List ℚ

/-- `d[mu].append(q)` on a dict modelled as a function. -/
def dictAppend (f : ℚ → List ℚ) (mu q : ℚ) : ℚ → List ℚ :=
  fun m => if m = mu then f m ++ [q] else f m

/-- The intensity inner loop (lines 70–79): for each mu in declared order,
append column `3 + 2*i` to its absolute list and column `4 + 2*i` to its
normalized list when those columns exist; a non-numeric token raises
`ValueError`, which the row's `except` catches, abandoning the rest of the
row but keeping every append already made. -/
def processMus (parts : List Tok) : List ℚ → ℕ → ParseState → ParseState
  | [], _, s => s
  | mu :: rest, i, s =>
    match parts[3 + 2 * i]? with
    | some (Tok.num q) =>
      let s1 : ParseState := ⟨s.wl, s.fn, s.fa, dictAppend s.iAbs mu q, s.iNorm⟩
      match parts[4 + 2 * i]? with
      | some (Tok.num q2) =>
        processMus parts rest (i + 1)
          ⟨s1.wl, s1.fn, s1.fa, s1.iAbs, dictAppend s1.iNorm mu q2⟩
      | some (Tok.str _) => s1
      | none => processMus parts rest (i + 1) s1
    | some (Tok.str _) => s
    | none =>
      match parts[4 + 2 * i]? with
      | some (Tok.num q2) =>
        processMus parts rest (i + 1)
          ⟨s.wl, s.fn, s.fa, s.iAbs, dictAppend s.iNorm mu q2⟩
      | some (Tok.str _) => s
      | none => processMus parts rest (i + 1) s

/-- One data row (lines 58–82): skip blank rows; append columns 0, 1, 2 to
wavelength / normalized flux / absolute flux in that order; in Intensity
mode continue with the per-mu columns.  The first failed conversion (or
missing common column) raises, the row's `except` catches it, and the row's
earlier appends remain. -/
def processRow (isInt : Bool) (mus : List ℚ) (s : ParseState) (parts : List Tok) :
    ParseState :=
  if parts.isEmpty then s
  else
    match parts[0]? with
    | some (Tok.num w) =>
      let s0 : ParseState := ⟨s.wl ++ [w], s.fn, s.fa, s.iAbs, s.iNorm⟩
      match parts[1]? with
      | some (Tok.num v1) =>
        let s1 : ParseState := ⟨s0.wl, s0.fn ++ [v1], s0.fa, s0.iAbs, s0.iNorm⟩
        match parts[2]? with
        | some (Tok.num v2) =>
          let s2 : ParseState := ⟨s1.wl, s1.fn, s1.fa ++ [v2], s1.iAbs, s1.iNorm⟩
          if isInt then processMus parts mus 0 s2 else s2
        | _ => s1
      | _ => s0
    | _ => s

/-- The parser's result (the returned dict); the intensity fields are
present only in Intensity mode. -/
structure Spectrum where
  mode : String
  wavelength : List ℚ
  flux_norm : List ℚ
  flux_abs : List ℚ
  mu_points : Option (List ℚ)
  intensity_abs : Option (ℚ → List ℚ)
  intensity_norm : Option (ℚ → List ℚ)

/-- `read_spectrum` of `scripts/turbospectrum_utils.py`, over the token-level
file model.  `none` models the one uncaught exception (a non-numeric token
after the `mu-points` marker).  The numpy conversion at the end is the
identity on this model. -/
def read_spectrum (lines : List PyLine) : Option Spectrum :=
  let hs := headerScan lines none 0
  let isInt : Bool :=
    match hs.1 with
    | some hl => containsMarker hl
    | none => false
  let muOpt : Option (List ℚ) :=
    match hs.1 with
    | some hl => if containsMarker hl then readMuPoints hl else some []
    | none => some []
  match muOpt with
  | none => none
  | some mus =>
    let init : ParseState := ⟨[], [], [], fun _ => [], fun _ => []⟩
    let fin := (lines.drop hs.2).foldl (processRow isInt mus) init
    some
      ⟨if isInt then "Intensity" else "Flux", fin.wl, fin.fn, fin.fa,
        if isInt then some mus else none,
        if isInt then some fin.iAbs else none,
        if isInt then some fin.iNorm else none⟩

/-! ### Characterisation of the header scan -/

/-- The leading run of comment-or-blank lines (what the scan loop walks
before breaking). -/
def leadingPrefix (lines : List PyLine) : List PyLine :=
  lines.takeWhile fun l => isCommentLine l || l.isEmpty

/-- The last comment line of the leading run: what `header_line` holds when
the data rows start. -/
def lastLeadingComment (lines : List PyLine) : Option PyLine :=
  ((leadingPrefix lines).filter isCommentLine).getLast?

theorem headerScan_fst (lines : List PyLine) (h : Option PyLine) (i : ℕ) :
    (headerScan lines h i).1 =
      (((leadingPrefix lines).filter isCommentLine).getLast?).or h := by
  induction lines generalizing h i with
  | nil => simp only [headerScan, leadingPrefix, List.takeWhile_nil,
      List.filter_nil, List.getLast?_nil, Option.or]
  | cons l rest ih =>
    simp only [headerScan]
    by_cases hc : isCommentLine l
    · have hp : leadingPrefix (l :: rest) = l :: leadingPrefix rest := by
        simp [leadingPrefix, List.takeWhile, hc]
      rw [if_pos hc, hp, ih, List.filter_cons, if_pos hc]
      cases hfe : (leadingPrefix rest).filter isCommentLine with
      | nil => rfl
      | cons a as =>
        rw [List.getLast?_cons_cons]
        obtain ⟨x, hx⟩ := Option.isSome_iff_exists.mp
          (List.getLast?_isSome.mpr (List.cons_ne_nil a as))
        rw [hx]
        rfl
    · by_cases hb : l.isEmpty
      · have hp : leadingPrefix (l :: rest) = l :: leadingPrefix rest := by
          simp [leadingPrefix, List.takeWhile, hc, hb]
        rw [if_neg hc, if_pos hb, hp, ih, List.filter_cons, if_neg]
        simp [hc]
      · have hp : leadingPrefix (l :: rest) = [] := by
          simp [leadingPrefix, List.takeWhile, hc, hb]
        rw [if_neg hc, if_neg hb, hp]
        rfl

theorem lastLeadingComment_mem {lines : List PyLine} {c : PyLine}
    (h : lastLeadingComment lines = some c) : c ∈ lines := by
  have h1 : c ∈ (leadingPrefix lines).filter isCommentLine :=
    List.mem_of_mem_getLast? h
  have h2 : c ∈ leadingPrefix lines := (List.filter_sublist _).subset h1
  exact ((List.takeWhile_sublist _).subset h2)

/-- A comment line or a blank line leaves the parse state untouched: a blank
line is skipped, and on a comment line `float()` fails already on the first
token. -/
theorem processRow_skip (isInt : Bool) (mus : List ℚ) (s : ParseState)
    (l : PyLine) (h : isCommentLine l = true ∨ l = []) : processRow isInt mus s l = s := by
  rcases h with h | h
  · cases l with
    | nil => simp [isCommentLine] at h
    | cons t rest =>
      cases t with
      | num q => simp [isCommentLine] at h
      | str str => simp [processRow]
  · subst h
    simp [processRow]

theorem foldl_processRow_const (isInt : Bool) (mus : List ℚ) (s : ParseState)
    (ls : List PyLine) (h : ∀ l ∈ ls, isCommentLine l = true ∨ l = []) :
    ls.foldl (processRow isInt mus) s = s := by
  induction ls generalizing s with
  | nil => rfl
  | cons l rest ih =>
    rw [List.foldl_cons, processRow_skip _ _ _ _ (h l (List.mem_cons_self l rest))]
    exact ih s fun x hx => h x (List.mem_cons_of_mem _ hx)

/-- C3 counterexample: on the empty file, `read_spectrum` does not fail with
a parse error — it returns a spectrum whose data sequences are all empty. -/
theorem read_spectrum_empty_file_returns :
    read_spectrum [] = some ⟨"Flux", [], [], [], none, none, none⟩ := rfl

/-- C3 (amended): a file that is empty, or whose lines are all comments or
blank (with no `mu-points` marker), is parsed without error to a `Flux`
spectrum whose wavelength, normalized-flux and absolute-flux sequences are
all empty; no parse error is raised. -/
theorem read_spectrum_no_data_rows (lines : List PyLine)
    (hall : ∀ l ∈ lines, isCommentLine l = true ∨ l = [])
    (hnomark : ∀ l ∈ lines, containsMarker l = false) :
    read_spectrum lines = some ⟨"Flux", [], [], [], none, none, none⟩ := by
  have hfst := headerScan_fst lines none 0
  rw [Option.or_none] at hfst
  have hdrop : ∀ l ∈ lines.drop (headerScan lines none 0).2,
      isCommentLine l = true ∨ l = [] :=
    fun l hl => hall l ((List.drop_sublist _ _).subset hl)
  cases hh : (headerScan lines none 0).1 with
  | none =>
    simp only [read_spectrum, hh]
    rw [foldl_processRow_const _ _ _ _ hdrop]
    rfl
  | some hl =>
    have hlast : lastLeadingComment lines = some hl := by
      unfold lastLeadingComment
      rw [← hfst]
      exact hh
    have hmem : hl ∈ lines := lastLeadingComment_mem hlast
    have hm : containsMarker hl = false := hnomark hl hmem
    simp only [read_spectrum, hh, hm, Bool.false_eq_true, if_false]
    rw [foldl_processRow_const _ _ _ _ hdrop]

/-- C3 witness input: one blank line and one comment line, no data rows. -/
def c3wFile : List PyLine := [[], [Tok.str "#c", Tok.num 1]]

theorem read_spectrum_no_data_rows_witness :
    (∀ l ∈ c3wFile, isCommentLine l = true ∨ l = []) ∧
      read_spectrum c3wFile = some ⟨"Flux", [], [], [], none, none, none⟩ := by
  have h1 : ∀ l ∈ c3wFile, isCommentLine l = true ∨ l = [] := by
    intro l hl
    fin_cases hl
    · right; rfl
    · left; rfl
  refine ⟨h1, read_spectrum_no_data_rows c3wFile h1 ?_⟩
  intro l hl
  fin_cases hl
  · rfl
  · rfl

/-! ### C4: mode detection uses the LAST leading comment line -/

/-- C4 counterexample file: the first leading comment line carries the
`mu-points` marker, a later comment line does not, then one data row. -/
def c4file : List PyLine :=
  [[Tok.str "#", Tok.str "mu-points", Tok.num 1],
   [Tok.str "#", Tok.str "end"],
   [Tok.num 1, Tok.num 2, Tok.num 3]]

/-- C4 counterexample: in `c4file` a leading comment line contains the
`mu-points` marker, yet the parser returns mode `Flux` — because only the
last leading comment line (`# end` here) is consulted. -/
theorem read_spectrum_marker_not_last_is_flux :
    isCommentLine [Tok.str "#", Tok.str "mu-points", Tok.num 1] = true ∧
      containsMarker [Tok.str "#", Tok.str "mu-points", Tok.num 1] = true ∧
      leadingPrefix c4file =
        [[Tok.str "#", Tok.str "mu-points", Tok.num 1], [Tok.str "#", Tok.str "end"]] ∧
      (read_spectrum c4file).map Spectrum.mode = some "Flux" := by
  refine ⟨rfl, by decide, by decide, rfl⟩

/-- C4 (amended): the parser's mode is `Intensity` if and only if the LAST
leading comment line (the final comment among the lines preceding the first
non-comment, non-blank line) contains the `mu-points` marker; in that case,
if the marker also occurs as an exact token, the mu values are the floats of
that line's tokens after the first such token, in order and not
deduplicated; otherwise the mode is `Flux`. -/
theorem read_spectrum_mode_by_last_header (lines : List PyLine) (s : Spectrum)
    (h : read_spectrum lines = some s) :
    (s.mode = "Intensity" ∨ s.mode = "Flux") ∧
      (s.mode = "Intensity" ↔
        ∃ hl, lastLeadingComment lines = some hl ∧ containsMarker hl = true) ∧
      (∀ hl, lastLeadingComment lines = some hl → containsMarker hl = true →
        ∀ idx, hl.findIdx? isMuTok = some idx →
          ∃ qs, floatAll (hl.drop (idx + 1)) = some qs ∧ s.mu_points = some qs) := by
  have hfst := headerScan_fst lines none 0
  rw [Option.or_none] at hfst
  have hIF : ("Intensity" : String) ≠ "Flux" := by decide
  cases hh : (headerScan lines none 0).1 with
  | none =>
    have hnone : lastLeadingComment lines = none := by
      unfold lastLeadingComment
      rw [← hfst]
      exact hh
    simp only [read_spectrum, hh] at h
    have hs : s.mode = "Flux" := by
      rw [← Option.some_inj.mp h]
      try rfl
    refine ⟨Or.inr hs, ?_, ?_⟩
    · rw [hs]
      simp only [hIF.symm, false_iff]
      rintro ⟨hl, hhl, -⟩
      rw [hnone] at hhl
      exact Option.noConfusion hhl
    · intro hl hhl
      rw [hnone] at hhl
      exact absurd hhl (by simp)
  | some hl =>
    have hlast : lastLeadingComment lines = some hl := by
      unfold lastLeadingComment
      rw [← hfst]
      exact hh
    cases hm : containsMarker hl with
    | false =>
      simp only [read_spectrum, hh, hm, Bool.false_eq_true, if_false] at h
      have hs : s.mode = "Flux" := by
        rw [← Option.some_inj.mp h]
        try rfl
      refine ⟨Or.inr hs, ?_, ?_⟩
      · rw [hs]
        simp only [hIF.symm, false_iff]
        rintro ⟨hl2, hhl2, hm2⟩
        rw [hlast] at hhl2
        rw [← Option.some_inj.mp hhl2] at hm2
        rw [hm] at hm2
        exact Bool.noConfusion hm2
      · intro hl2 hhl2 hm2
        rw [hlast] at hhl2
        rw [← Option.some_inj.mp hhl2] at hm2
        rw [hm] at hm2
        exact absurd hm2 (by simp)
    | true =>
      simp only [read_spectrum, hh, hm, if_true] at h
      cases hmu : readMuPoints hl with
      | none =>
        rw [hmu] at h
        exact Option.noConfusion h
      | some mus =>
        rw [hmu] at h
        have hs : s.mode = "Intensity" := by
          rw [← Option.some_inj.mp h]
          try rfl
        have hsmu : s.mu_points = some mus := by
          rw [← Option.some_inj.mp h]
          try rfl
        refine ⟨Or.inl hs, ?_, ?_⟩
        · rw [hs]
          exact ⟨fun _ => ⟨hl, hlast, hm⟩, fun _ => rfl⟩
        · intro hl2 hhl2 hm2 idx hidx
          rw [hlast] at hhl2
          have hle : hl2 = hl := (Option.some_inj.mp hhl2).symm
          subst hle
          refine ⟨mus, ?_, hsmu⟩
          rw [readMuPoints, hidx] at hmu
          exact hmu

/-- C4 witness input: the (only, hence last) leading comment line carries
the marker with two trailing numeric tokens, then one data row. -/
def c4wFile : List PyLine :=
  [[Tok.str "#", Tok.str "mu-points", Tok.num 1, Tok.num 2],
   [Tok.num 5, Tok.num 6, Tok.num 7, Tok.num 8, Tok.num 9]]

/-- The spectrum `read_spectrum` computes for `c4wFile`. -/
def c4wParsed : Spectrum :=
  (read_spectrum c4wFile).getD ⟨"", [], [], [], none, none, none⟩

theorem read_spectrum_mode_by_last_header_witness :
    read_spectrum c4wFile = some c4wParsed ∧ c4wParsed.mode = "Intensity" ∧
      c4wParsed.mu_points = some [1, 2] := by
  have hread : read_spectrum c4wFile = some c4wParsed := rfl
  have h := read_spectrum_mode_by_last_header c4wFile c4wParsed hread
  refine ⟨hread, ?_, ?_⟩
  · exact (h.2.1).mpr ⟨[Tok.str "#", Tok.str "mu-points", Tok.num 1, Tok.num 2],
      by decide, by decide⟩
  · obtain ⟨qs, hq, hmu⟩ := h.2.2
      [Tok.str "#", Tok.str "mu-points", Tok.num 1, Tok.num 2] (by decide) (by decide)
      1 (by decide)
    have : qs = [1, 2] := by
      have : floatAll [Tok.num 1, Tok.num 2] = some [1, 2] := rfl
      rw [show ([Tok.str "#", Tok.str "mu-points", Tok.num 1, Tok.num 2].drop 2)
            = [Tok.num 1, Tok.num 2] from rfl] at hq
      rw [this] at hq
      exact (Option.some_inj.mp hq).symm
    rw [hmu, this]

/-! ### C5: a row failing conversion mid-way leaves ragged sequences -/

/-- C5 failing input: a good data row, then a row whose second column is not
numeric. -/
def c5File : List PyLine :=
  [[Tok.num 1, Tok.num 2, Tok.num 3],
   [Tok.num 4, Tok.str "x", Tok.num 5]]

/-- C5 (code bug demonstration): on `c5File`, `read_spectrum` appends the
second row's wavelength `4` before the conversion of its second column
fails, so the returned wavelength sequence has length 2 while the
normalized-flux and absolute-flux sequences have length 1 — the malformed
row is not skipped as a whole and the length invariant is broken. -/
theorem read_spectrum_ragged_lengths :
    (read_spectrum c5File).map
        (fun s => (s.wavelength, s.flux_norm, s.flux_abs)) =
      some ([1, 4], [2], [3]) := rfl

/-! ### C6: intensity columns `3 + 2*i` / `4 + 2*i` per declared mu -/

/-- The value of a token accepted by `float()` (junk on `str`, never used
under the theorems' hypotheses). -/
def tokVal : Tok → ℚ
  | Tok.num q => q
  | Tok.str _ => 0

theorem dictAppend_ne (f : ℚ → List ℚ) (mu q x : ℚ) (hx : x ≠ mu) :
    dictAppend f mu q x = f x := by
  simp [dictAppend, hx]

theorem dictAppend_self (f : ℚ → List ℚ) (mu q : ℚ) :
    dictAppend f mu q mu = f mu ++ [q] := by
  simp [dictAppend]

/-- Values not among the mus are never touched by the intensity loop. -/
theorem processMus_frame (parts : List Tok) (mus : List ℚ) (j : ℕ)
    (s : ParseState) (x : ℚ) (hx : x ∉ mus) :
    (processMus parts mus j s).iAbs x = s.iAbs x ∧
      (processMus parts mus j s).iNorm x = s.iNorm x := by
  induction mus generalizing j s with
  | nil => exact ⟨rfl, rfl⟩
  | cons mu rest ih =>
    have hxmu : x ≠ mu := fun e => hx (e ▸ List.mem_cons_self mu rest)
    have hxr : x ∉ rest := fun hr => hx (List.mem_cons_of_mem _ hr)
    simp only [processMus]
    cases h3 : parts[3 + 2 * j]? with
    | some t =>
      cases t with
      | num q =>
        cases h4 : parts[4 + 2 * j]? with
        | some t2 =>
          cases t2 with
          | num q2 =>
            obtain ⟨ha, hn⟩ := ih (j + 1)
              ⟨s.wl, s.fn, s.fa, dictAppend s.iAbs mu q,
                dictAppend s.iNorm mu q2⟩ hxr
            exact ⟨by rw [ha]; exact dictAppend_ne _ _ _ _ hxmu,
              by rw [hn]; exact dictAppend_ne _ _ _ _ hxmu⟩
          | str t2s => exact ⟨dictAppend_ne _ _ _ _ hxmu, rfl⟩
        | none =>
          obtain ⟨ha, hn⟩ := ih (j + 1)
            ⟨s.wl, s.fn, s.fa, dictAppend s.iAbs mu q, s.iNorm⟩ hxr
          exact ⟨by rw [ha]; exact dictAppend_ne _ _ _ _ hxmu, hn⟩
      | str ts => exact ⟨rfl, rfl⟩
    | none =>
      cases h4 : parts[4 + 2 * j]? with
      | some t2 =>
        cases t2 with
        | num q2 =>
          obtain ⟨ha, hn⟩ := ih (j + 1)
            ⟨s.wl, s.fn, s.fa, s.iAbs, dictAppend s.iNorm mu q2⟩ hxr
          exact ⟨ha, by rw [hn]; exact dictAppend_ne _ _ _ _ hxmu⟩
        | str t2s => exact ⟨rfl, rfl⟩
      | none => exact ih (j + 1) s hxr

/-- On a row whose tokens all convert, the intensity loop started at offset
`j` appends, for the mu at position `i`, exactly column `3 + 2*(j+i)` to its
absolute list and column `4 + 2*(j+i)` to its normalized list — nothing if
the column is beyond the row's end. -/
theorem processMus_getElem (parts : List Tok)
    (hnum : ∀ t ∈ parts, ∃ q, t = Tok.num q) (mus : List ℚ) :
    ∀ (j : ℕ) (s : ParseState), mus.Nodup →
      ∀ (i : ℕ) (hi : i < mus.length),
        (processMus parts mus j s).iAbs mus[i] =
            s.iAbs mus[i] ++ (parts[3 + 2 * (j + i)]?.map tokVal).toList ∧
          (processMus parts mus j s).iNorm mus[i] =
            s.iNorm mus[i] ++ (parts[4 + 2 * (j + i)]?.map tokVal).toList := by
  induction mus with
  | nil => intro j s hnd i hi; exact absurd hi (by simp)
  | cons mu rest ih =>
    intro j s hnd i hi
    have hmu_notin : mu ∉ rest := (List.nodup_cons.mp hnd).1
    have hnd_rest : rest.Nodup := (List.nodup_cons.mp hnd).2
    -- the state after the head mu's two column accesses
    cases i with
    | zero =>
      simp only [List.getElem_cons_zero]
      simp only [processMus]
      cases h3 : parts[3 + 2 * j]? with
      | some t =>
        obtain ⟨q, rfl⟩ := hnum t (List.getElem?_mem h3)
        cases h4 : parts[4 + 2 * j]? with
        | some t2 =>
          obtain ⟨q2, rfl⟩ := hnum t2 (List.getElem?_mem h4)
          obtain ⟨ha, hn⟩ := processMus_frame parts rest (j + 1)
            ⟨s.wl, s.fn, s.fa, dictAppend s.iAbs mu q,
              dictAppend s.iNorm mu q2⟩ mu hmu_notin
          rw [ha, hn]
          constructor <;> simp [dictAppend, tokVal, h3, h4]
        | none =>
          obtain ⟨ha, hn⟩ := processMus_frame parts rest (j + 1)
            ⟨s.wl, s.fn, s.fa, dictAppend s.iAbs mu q, s.iNorm⟩ mu hmu_notin
          rw [ha, hn]
          constructor <;> simp [dictAppend, tokVal, h3, h4]
      | none =>
        have h4 : parts[4 + 2 * j]? = none := by
          rw [List.getElem?_eq_none_iff] at h3 ⊢
          omega
        simp only [h4]
        obtain ⟨ha, hn⟩ := processMus_frame parts rest (j + 1) s mu hmu_notin
        rw [ha, hn]
        constructor <;> simp [h3, h4]
    | succ i' =>
      have hi' : i' < rest.length := by
        simpa [Nat.succ_lt_succ_iff] using hi
      simp only [List.getElem_cons_succ]
      have hne : (mu :: rest)[0] ≠ rest[i'] := by
        intro e
        exact hmu_notin (by
          rw [List.getElem_cons_zero] at e
          rw [e]
          exact rest.getElem_mem hi')
      have hne' : rest[i'] ≠ mu := by
        intro e
        rw [List.getElem_cons_zero] at hne
        exact hne e.symm
      have harith_a : 3 + 2 * (j + 1 + i') = 3 + 2 * (j + (i' + 1)) := by ring
      have harith_n : 4 + 2 * (j + 1 + i') = 4 + 2 * (j + (i' + 1)) := by ring
      simp only [processMus]
      cases h3 : parts[3 + 2 * j]? with
      | some t =>
        obtain ⟨q, rfl⟩ := hnum t (List.getElem?_mem h3)
        cases h4 : parts[4 + 2 * j]? with
        | some t2 =>
          obtain ⟨q2, rfl⟩ := hnum t2 (List.getElem?_mem h4)
          obtain ⟨ha, hn⟩ := ih (j + 1)
            ⟨s.wl, s.fn, s.fa, dictAppend s.iAbs mu q,
              dictAppend s.iNorm mu q2⟩ hnd_rest i' hi'
          rw [ha, hn, harith_a, harith_n]
          constructor <;> simp [dictAppend, hne']
        | none =>
          obtain ⟨ha, hn⟩ := ih (j + 1)
            ⟨s.wl, s.fn, s.fa, dictAppend s.iAbs mu q, s.iNorm⟩ hnd_rest i' hi'
          rw [ha, hn, harith_a, harith_n]
          constructor <;> simp [dictAppend, hne']
      | none =>
        have h4 : parts[4 + 2 * j]? = none := by
          rw [List.getElem?_eq_none_iff] at h3 ⊢
          omega
        simp only [h4]
        obtain ⟨ha, hn⟩ := ih (j + 1) s hnd_rest i' hi'
        rw [ha, hn, harith_a, harith_n]
        exact ⟨rfl, rfl⟩

/-- C6: in Intensity mode, on a successfully parsed data row (at least the
three common columns, every present token numeric), the value appended for
the mu at declared position `i` is column `3 + 2*i` (absolute) and column
`4 + 2*i` (normalized); a column beyond the row's end merely contributes
nothing for that mu, and the parse of the row never fails. -/
theorem processRow_intensity_columns (mus : List ℚ) (s : ParseState)
    (parts : List Tok) (i : ℕ) (hnd : mus.Nodup) (hi : i < mus.length)
    (hlen : 3 ≤ parts.length) (hnum : ∀ t ∈ parts, ∃ q, t = Tok.num q) :
    (processRow true mus s parts).iAbs mus[i] =
        s.iAbs mus[i] ++ (parts[3 + 2 * i]?.map tokVal).toList ∧
      (processRow true mus s parts).iNorm mus[i] =
        s.iNorm mus[i] ++ (parts[4 + 2 * i]?.map tokVal).toList := by
  have h0 : ∃ q0, parts[0]? = some (Tok.num q0) := by
    have hlt : 0 < parts.length := by omega
    obtain ⟨q, hq⟩ := hnum parts[0] (parts.getElem_mem hlt)
    exact ⟨q, by rw [List.getElem?_eq_getElem hlt, hq]⟩
  have h1 : ∃ q1, parts[1]? = some (Tok.num q1) := by
    have hlt : 1 < parts.length := by omega
    obtain ⟨q, hq⟩ := hnum parts[1] (parts.getElem_mem hlt)
    exact ⟨q, by rw [List.getElem?_eq_getElem hlt, hq]⟩
  have h2 : ∃ q2, parts[2]? = some (Tok.num q2) := by
    have hlt : 2 < parts.length := by omega
    obtain ⟨q, hq⟩ := hnum parts[2] (parts.getElem_mem hlt)
    exact ⟨q, by rw [List.getElem?_eq_getElem hlt, hq]⟩
  obtain ⟨q0, h0⟩ := h0
  obtain ⟨q1, h1⟩ := h1
  obtain ⟨q2, h2⟩ := h2
  have hne : ¬parts.isEmpty := by
    cases parts with
    | nil => simp at hlen
    | cons a l => simp
  simp only [processRow, hne, Bool.false_eq_true, if_false, h0, h1, h2, if_true]
  have := processMus_getElem parts hnum mus 0
    ⟨s.wl ++ [q0], s.fn ++ [q1], s.fa ++ [q2], s.iAbs, s.iNorm⟩ hnd i hi
  simpa using this

/-- C6 witness: two mus, a six-column row: mu at position 1 receives column
`3 + 2*1 = 5` as absolute intensity and nothing as normalized intensity
(column 6 is beyond the row); the parse does not fail. -/
theorem processRow_intensity_columns_witness :
    (processRow true [1, 2] ⟨[], [], [], fun _ => [], fun _ => []⟩
          [Tok.num 10, Tok.num 11, Tok.num 12, Tok.num 13, Tok.num 14, Tok.num 15]).iAbs 2 =
        [15] ∧
      (processRow true [1, 2] ⟨[], [], [], fun _ => [], fun _ => []⟩
          [Tok.num 10, Tok.num 11, Tok.num 12, Tok.num 13, Tok.num 14, Tok.num 15]).iNorm 2 =
        [] := by
  have hnd : ([1, 2] : List ℚ).Nodup := by
    simp only [List.nodup_cons, List.mem_singleton, List.nodup_nil, and_true,
      List.not_mem_nil, not_false_iff]
    norm_num
  have h := processRow_intensity_columns [1, 2]
    ⟨[], [], [], fun _ => [], fun _ => []⟩
    [Tok.num 10, Tok.num 11, Tok.num 12, Tok.num 13, Tok.num 14, Tok.num 15]
    1 hnd (by norm_num) (by norm_num)
    (by
      intro t ht
      simp only [List.mem_cons, List.not_mem_nil, or_false] at ht
      rcases ht with h | h | h | h | h | h <;> exact ⟨_, h⟩)
  simpa using h

/-! ## `scripts/run_turbospectrum.py` — `ModelInterpolator` -/

/-- One entry of `available_models`: the fields `_scan_models` parses out of
a catalog filename (`alpha` is parsed too but never used by the bracketing
logic, so it is omitted here). -/
structure ModelRec where
  teff : ℚ
  logg : ℚ
  feh : ℚ
  turb : String
  path : String
deriving DecidableEq

/-- `sorted(list(set(xs)))`: the distinct values in increasing order.
Python's `sorted` returns the unique ascending reordering of a list of
numbers, here produced by insertion sort. -/
def sortedDistinct (l : List ℚ) : List ℚ :=
  List.insertionSort (fun a b : ℚ => a ≤ b) l.dedup

/-- Python `l[-k]` (negative indexing): `IndexError` (→ `none`) when the
list is shorter than `k`. -/
def pyNegIdx (l : List ℚ) (k : ℕ) : Option ℚ :=
  if k ≤ l.length then l[l.length - k]? else none

/-- The `for i in range(len(values)-1)` loop of `get_bracket`: the first
adjacent pair `(values[i], values[i+1])` with `values[i] <= target <
values[i+1]`, if any. -/
def bracketScan : List ℚ → ℚ → Option (ℚ × ℚ)
  | a :: b :: rest, t =>
    if a ≤ t ∧ t < b then some (a, b) else bracketScan (b :: rest) t
  | _, _ => none

/-- `get_bracket` (lines 177–184 of `run_turbospectrum.py`): re-sort the
values, clamp at either end, otherwise scan for the enclosing adjacent
pair; the final `return values[0], values[1]` is the source's unreachable
fallback.  `none` models an uncaught `IndexError` (fewer than two
values). -/
def get_bracket (values : List ℚ) (target : ℚ) : Option (ℚ × ℚ) :=
  let v := List.insertionSort (fun a b : ℚ => a ≤ b) values
  match v[0]? with
  | none => none
  | some v0 =>
    if target ≤ v0 then
      match v[1]? with
      | none => none
      | some v1 => some (v0, v1)
    else
      match pyNegIdx v 1 with
      | none => none
      | some vlast =>
        if vlast ≤ target then
          match pyNegIdx v 2 with
          | none => none
          | some vpen => some (vpen, vlast)
        else
          match bracketScan v target with
          | some p => some p
          | none =>
            match v[0]?, v[1]? with
            | some a, some b => some (a, b)
            | _, _ => none

/-- The corner enumeration of lines 196–199: `t` outermost, then `g`, then
`z` innermost. -/
def cornerTriples (t1 t2 g1 g2 z1 z2 : ℚ) : List (ℚ × ℚ × ℚ) :=
  [(t1, g1, z1), (t1, g1, z2), (t1, g2, z1), (t1, g2, z2),
   (t2, g1, z1), (t2, g1, z2), (t2, g2, z1), (t2, g2, z2)]

/-- The corner-matching predicate of line 201: exact `teff`, `logg` and
`feh` within `0.01`. -/
def cornerMatch (t g z : ℚ) (m : ModelRec) : Bool :=
  decide (m.teff = t) && decide (|m.logg - g| < 1 / 100) &&
    decide (|m.feh - z| < 1 / 100)

/-- `next((m for m in candidates if ...), None)` of line 201. -/
def findCorner (cands : List ModelRec) (t g z : ℚ) : Option ModelRec :=
  cands.find? (cornerMatch t g z)

/-- The failure values `find_bracketing_models` can return in its second
component.  The source formats them into message strings; the triple of a
missing corner is carried structurally here. -/
inductive BracketErr where
  | noTurbMatch
  | missingCorner (t g z : ℚ)
deriving DecidableEq

/-- The corner loop of lines 196–206: collect the matched paths in corner
order, returning the first missing corner's triple as the error. -/
def collectCorners (cands : List ModelRec) : List (ℚ × ℚ × ℚ) → Except BracketErr (List String)
  | [] => Except.ok []
  | (t, g, z) :: rest =>
    match findCorner cands t g z with
    | none => Except.error (BracketErr.missingCorner t g z)
    | some m =>
      match collectCorners cands rest with
      | Except.error e => Except.error e
      | Except.ok ps => Except.ok (m.path :: ps)

/-- `candidates` of line 166: the catalog entries whose turbulence id
matches the target's. -/
def turbCands (available : List ModelRec) (tturb : String) : List ModelRec :=
  available.filter fun m => m.turb == tturb

/-- `teffs` of line 172: the distinct sorted Teff values of the candidates. -/
def teffAxis (available : List ModelRec) (tturb : String) : List ℚ :=
  sortedDistinct ((turbCands available tturb).map ModelRec.teff)

/-- `loggs` of line 173. -/
def loggAxis (available : List ModelRec) (tturb : String) : List ℚ :=
  sortedDistinct ((turbCands available tturb).map ModelRec.logg)

/-- `fehs` of line 174. -/
def fehAxis (available : List ModelRec) (tturb : String) : List ℚ :=
  sortedDistinct ((turbCands available tturb).map ModelRec.feh)

/-- `ModelInterpolator.find_bracketing_models` (lines 162–206): filter the
catalog by turbulence id, compute the three axis brackets, and collect the
8 corner models; `(None, msg)` failures keep the shape `(none, some err)`,
successes `(some paths, none)`, and `exc` models the uncaught `IndexError`
raised inside `get_bracket` when an axis has fewer than two distinct
values. -/
def find_bracketing_models (available : List ModelRec) (tt tg tz : ℚ)
    (tturb : String) : PyResult (Option (List String) × Option BracketErr) :=
  let candidates := turbCands available tturb
  if candidates.isEmpty then PyResult.ret (none, some BracketErr.noTurbMatch)
  else
    match get_bracket (teffAxis available tturb) tt,
        get_bracket (loggAxis available tturb) tg,
        get_bracket (fehAxis available tturb) tz with
    | some (t1, t2), some (g1, g2), some (z1, z2) =>
      match collectCorners candidates (cornerTriples t1 t2 g1 g2 z1 z2) with
      | Except.error e => PyResult.ret (none, some e)
      | Except.ok ps => PyResult.ret (some ps, none)
    | _, _, _ => PyResult.exc

/-- What `ModelInterpolator.interpolate` does before any file or process
side effect: `abort` models the early `return False, error` (no external
tool invoked); `runTool` models reaching the `subprocess.run` call with the
8 bracket paths. -/
inductive InterpAction where
  | abort (err : Option BracketErr)
  | runTool (paths : List String)
deriving DecidableEq

/-- Lines 208–213: `interpolate` calls `find_bracketing_models` and returns
early (`if not brackets`, Python truthiness: `None` or `[]`) without running
the interpolation tool; otherwise it reaches the subprocess invocation. -/
def interpolate_action (available : List ModelRec) (tt tg tz : ℚ)
    (tturb : String) : PyResult InterpAction :=
  match find_bracketing_models available tt tg tz tturb with
  | PyResult.exc => PyResult.exc
  | PyResult.ret (bs, err) =>
    match bs with
    | none => PyResult.ret (InterpAction.abort err)
    | some ps =>
      if ps.isEmpty then PyResult.ret (InterpAction.abort err)
      else PyResult.ret (InterpAction.runTool ps)

/-- `(a, b)` is the pair of adjacent distinct catalog values enclosing `x`
(the bracket a strictly interior target must get). -/
def IsAdjBracket (sv : List ℚ) (x a b : ℚ) : Prop :=
  ∃ i : ℕ, i + 1 < sv.length ∧ sv[i]? = some a ∧ sv[i + 1]? = some b ∧
    a ≤ x ∧ x < b

/-! ### Facts about `sortedDistinct` and `get_bracket` -/

theorem sortedDistinct_sorted (l : List ℚ) :
    (sortedDistinct l).Sorted (fun a b : ℚ => a ≤ b) :=
  List.sorted_insertionSort _ _

theorem sortedDistinct_nodup (l : List ℚ) : (sortedDistinct l).Nodup :=
  (List.perm_insertionSort _ _).nodup_iff.mpr (List.nodup_dedup l)

theorem sortedDistinct_mem {l : List ℚ} {a : ℚ} :
    a ∈ sortedDistinct l ↔ a ∈ l := by
  rw [sortedDistinct]
  rw [(List.perm_insertionSort _ _).mem_iff]
  exact List.mem_dedup

theorem sortedDistinct_length_pos {l : List ℚ} (h : l ≠ []) :
    0 < (sortedDistinct l).length := by
  rcases List.exists_mem_of_ne_nil l h with ⟨a, ha⟩
  exact List.length_pos_of_mem (sortedDistinct_mem.mpr ha)

/-- A sorted list without duplicates is strictly increasing. -/
theorem sorted_nodup_pairwise_lt {v : List ℚ}
    (hs : v.Sorted (fun a b : ℚ => a ≤ b)) (hnd : v.Nodup) :
    v.Pairwise (fun a b : ℚ => a < b) :=
  (List.Pairwise.and hs hnd).imp fun h => lt_of_le_of_ne h.1 h.2

theorem pairwise_lt_getElem {v : List ℚ}
    (hp : v.Pairwise (fun a b : ℚ => a < b)) {i j : ℕ}
    (hi : i < v.length) (hj : j < v.length) (hij : i < j) : v[i] < v[j] :=
  List.pairwise_iff_getElem.mp hp i j hi hj hij

theorem sorted_getElem_le {v : List ℚ}
    (hs : v.Sorted (fun a b : ℚ => a ≤ b)) {i j : ℕ}
    (hi : i < v.length) (hj : j < v.length) (hij : i ≤ j) : v[i] ≤ v[j] := by
  rcases Nat.lt_or_ge i j with h | h
  · exact List.pairwise_iff_getElem.mp hs i j hi hj h
  · have : i = j := le_antisymm hij h
    subst this
    exact le_refl _

theorem get_bracket_clamp_low {values : List ℚ} {x v0 v1 : ℚ}
    (hs : values.Sorted (fun a b : ℚ => a ≤ b))
    (h0 : values[0]? = some v0) (h1 : values[1]? = some v1) (hx : x ≤ v0) :
    get_bracket values x = some (v0, v1) := by
  simp only [get_bracket, List.Sorted.insertionSort_eq hs, h0, h1, if_pos hx]

theorem get_bracket_clamp_high {values : List ℚ} {x vp vl : ℚ}
    (hs : values.Sorted (fun a b : ℚ => a ≤ b)) (hnd : values.Nodup)
    (h2 : 2 ≤ values.length)
    (hp : values[values.length - 2]? = some vp)
    (hl : values[values.length - 1]? = some vl) (hx : vl ≤ x) :
    get_bracket values x = some (vp, vl) := by
  have h0lt : 0 < values.length := by omega
  have hllt : values.length - 1 < values.length := by omega
  have hv0 : values[0]? = some values[0] := List.getElem?_eq_getElem h0lt
  have h0l : values[0] < values[values.length - 1] :=
    pairwise_lt_getElem (sorted_nodup_pairwise_lt hs hnd) h0lt hllt (by omega)
  have hlval : values[values.length - 1] = vl := by
    rw [List.getElem?_eq_getElem hllt] at hl
    exact Option.some_inj.mp hl
  have hnotlow : ¬x ≤ values[0] := by
    rw [hlval] at h0l
    intro hc
    exact absurd (lt_of_lt_of_le h0l hx) (not_lt.mpr hc)
  have hneg1 : pyNegIdx (values.insertionSort fun a b : ℚ => a ≤ b) 1 = some vl := by
    rw [List.Sorted.insertionSort_eq hs, pyNegIdx, if_pos (by omega)]
    exact hl
  have hneg2 : pyNegIdx (values.insertionSort fun a b : ℚ => a ≤ b) 2 = some vp := by
    rw [List.Sorted.insertionSort_eq hs, pyNegIdx, if_pos h2]
    exact hp
  simp only [get_bracket, List.Sorted.insertionSort_eq hs, hv0, if_neg hnotlow]
  rw [List.Sorted.insertionSort_eq hs] at hneg1 hneg2
  simp only [hneg1, hneg2, if_pos hx]

/-- The scan loop finds an enclosing adjacent pair whenever the head is at
most the target and the last value exceeds it. -/
theorem bracketScan_some :
    ∀ (v : List ℚ) (x a : ℚ), v.head? = some a → a ≤ x →
      (∀ vl, v.getLast? = some vl → x < vl) →
      ∃ p q, bracketScan v x = some (p, q) ∧ ∃ i : ℕ, i + 1 < v.length ∧
        v[i]? = some p ∧ v[i + 1]? = some q ∧ p ≤ x ∧ x < q := by
  intro v
  induction v with
  | nil => intro x a ha; exact absurd ha (by simp)
  | cons c rest ih =>
    intro x a ha hax hlast
    have hc : c = a := by
      rw [List.head?_cons] at ha
      exact Option.some_inj.mp ha
    subst hc
    cases rest with
    | nil =>
      exact absurd (hlast c (by simp)) (not_lt.mpr hax)
    | cons b rest2 =>
      by_cases hcb : c ≤ x ∧ x < b
      · refine ⟨c, b, ?_, 0, by simp, by simp, by simp, hcb.1, hcb.2⟩
        simp only [bracketScan, if_pos hcb]
      · have hbx : b ≤ x := by
          rcases not_and_or.mp hcb with h | h
          · exact absurd hax h
          · exact not_lt.mp h
        have hlast2 : ∀ vl, (b :: rest2).getLast? = some vl → x < vl := by
          intro vl hvl
          exact hlast vl (by rw [List.getLast?_cons_cons]; exact hvl)
        obtain ⟨p, q, hscan, i, hilen, hip, hiq, hpx, hxq⟩ :=
          ih x b rfl hbx hlast2
        refine ⟨p, q, ?_, i + 1, ?_, ?_, ?_, hpx, hxq⟩
        · simp only [bracketScan, if_neg hcb]
          exact hscan
        · simp only [List.length_cons]
          simp only [List.length_cons] at hilen
          omega
        · rw [List.getElem?_cons_succ]
          exact hip
        · rw [List.getElem?_cons_succ]
          exact hiq

/-- For a strictly interior target, `get_bracket` succeeds and returns the
enclosing adjacent pair. -/
theorem get_bracket_interior {values : List ℚ} {x v0 vl : ℚ}
    (hs : values.Sorted (fun a b : ℚ => a ≤ b))
    (h0 : values[0]? = some v0) (hl : values[values.length - 1]? = some vl)
    (hlow : v0 < x) (hhigh : x < vl) :
    ∃ a b, get_bracket values x = some (a, b) ∧ IsAdjBracket values x a b := by
  have hnotlow : ¬x ≤ v0 := not_le.mpr hlow
  have h0lt : 0 < values.length := by
    cases values with
    | nil => exact absurd h0 (by simp)
    | cons a l => simp
  have hneg1 : pyNegIdx values 1 = some vl := by
    rw [pyNegIdx, if_pos (by omega)]
    exact hl
  have hnothigh : ¬vl ≤ x := not_le.mpr hhigh
  have hhead : values.head? = some v0 := by
    rw [List.head?_eq_getElem?]
    exact h0
  have hlastv : values.getLast? = some vl := by
    rw [List.getLast?_eq_getElem?]
    exact hl
  obtain ⟨p, q, hscan, i, hilen, hip, hiq, hpx, hxq⟩ :=
    bracketScan_some values x v0 hhead (le_of_lt hlow)
      (fun w hw => by rw [hlastv] at hw; rw [← Option.some_inj.mp hw]; exact hhigh)
  refine ⟨p, q, ?_, i, hilen, hip, hiq, hpx, hxq⟩
  simp only [get_bracket, List.Sorted.insertionSort_eq hs, h0, if_neg hnotlow,
    hneg1, if_neg hnothigh, hscan]

/-- The bracket of an enclosing adjacent pair is unique, and `get_bracket`
returns exactly it. -/
theorem get_bracket_agrees {values : List ℚ} {x a b : ℚ}
    (hs : values.Sorted (fun a b : ℚ => a ≤ b)) (hnd : values.Nodup)
    (h : IsAdjBracket values x a b) : get_bracket values x = some (a, b) := by
  obtain ⟨i, hilen, hia, hib, hax, hxb⟩ := h
  have hi : i < values.length := by omega
  have hi1 : i + 1 < values.length := hilen
  have hav : values[i] = a := by
    rw [List.getElem?_eq_getElem hi] at hia
    exact Option.some_inj.mp hia
  have hbv : values[i + 1] = b := by
    rw [List.getElem?_eq_getElem hi1] at hib
    exact Option.some_inj.mp hib
  have h0lt : 0 < values.length := by omega
  have hv0 : values[0]? = some values[0] := List.getElem?_eq_getElem h0lt
  by_cases hlow : x ≤ values[0]
  · -- the target is at the low edge: the adjacent pair must be the first two
    have h0a : values[0] ≤ a := hav ▸ sorted_getElem_le hs h0lt hi (Nat.zero_le i)
    have ha0 : a = values[0] := le_antisymm (le_trans hax hlow) h0a
    have hieq : i = 0 := by
      have := (List.Nodup.getElem_inj_iff hnd).mp (hav.trans ha0)
      exact this
    subst hieq
    exact get_bracket_clamp_low hs hia (by simpa using hib) (hav ▸ hlow)
  · -- not clamped low
    have hllt : values.length - 1 < values.length := by omega
    have hi1le : i + 1 ≤ values.length - 1 := by omega
    have hble : b ≤ values[values.length - 1] :=
      hbv ▸ sorted_getElem_le hs hi1 hllt hi1le
    have hnothigh : ¬values[values.length - 1] ≤ x := by
      intro hc
      exact absurd (lt_of_lt_of_le hxb (le_trans hble hc)) (lt_irrefl x)
    have hlval : values[values.length - 1]? = some values[values.length - 1] :=
      List.getElem?_eq_getElem hllt
    obtain ⟨p, q, hscan, j, hjlen, hjp, hjq, hpx, hxq⟩ :=
      get_bracket_interior hs hv0 hlval (not_le.mp hlow)
        (lt_of_lt_of_le hxb hble)
    -- uniqueness of the enclosing adjacent pair
    have hj : j < values.length := by omega
    have hj1 : j + 1 < values.length := hjlen
    have hpv : values[j] = p := by
      rw [List.getElem?_eq_getElem hj] at hjp
      exact Option.some_inj.mp hjp
    have hqv : values[j + 1] = q := by
      rw [List.getElem?_eq_getElem hj1] at hjq
      exact Option.some_inj.mp hjq
    have hij : i = j := by
      by_contra hne
      rcases Nat.lt_or_ge i j with hlt | hge
      · have : values[i + 1] ≤ values[j] :=
          sorted_getElem_le hs hi1 hj (by omega)
        rw [hbv, hpv] at this
        exact absurd (lt_of_lt_of_le hxb (le_trans this hpx)) (lt_irrefl x)
      · have hltji : j < i := by omega
        have : values[j + 1] ≤ values[i] :=
          sorted_getElem_le hs hj1 hi (by omega)
        rw [hqv, hav] at this
        exact absurd (lt_of_lt_of_le hxq (le_trans this hax)) (lt_irrefl x)
    subst hij
    rw [hscan, ← hav, ← hbv, hpv, hqv]

/-- With at least two distinct values, `get_bracket` always succeeds. -/
theorem get_bracket_total {values : List ℚ}
    (hs : values.Sorted (fun a b : ℚ => a ≤ b)) (hnd : values.Nodup)
    (h2 : 2 ≤ values.length) (x : ℚ) :
    ∃ p, get_bracket values x = some p := by
  have h0lt : 0 < values.length := by omega
  have h1lt : 1 < values.length := by omega
  have hllt : values.length - 1 < values.length := by omega
  have hv0 : values[0]? = some values[0] := List.getElem?_eq_getElem h0lt
  have hv1 : values[1]? = some values[1] := List.getElem?_eq_getElem h1lt
  have hvl : values[values.length - 1]? = some values[values.length - 1] :=
    List.getElem?_eq_getElem hllt
  by_cases hlow : x ≤ values[0]
  · exact ⟨_, get_bracket_clamp_low hs hv0 hv1 hlow⟩
  · by_cases hhigh : values[values.length - 1] ≤ x
    · have hplt : values.length - 2 < values.length := by omega
      exact ⟨_, get_bracket_clamp_high hs hnd h2
        (List.getElem?_eq_getElem hplt) hvl hhigh⟩
    · obtain ⟨a, b, heq, -⟩ :=
        get_bracket_interior hs hv0 hvl (not_le.mp hlow) (not_le.mp hhigh)
      exact ⟨(a, b), heq⟩

/-- With a single value (one distinct grid point on an axis), both edge
branches of `get_bracket` hit an out-of-range index: an `IndexError`. -/
theorem get_bracket_singleton {values : List ℚ} (h1 : values.length = 1)
    (x : ℚ) : get_bracket values x = none := by
  obtain ⟨a, rfl⟩ := List.length_eq_one.mp h1
  by_cases hx : x ≤ a
  · simp [get_bracket, List.insertionSort, List.orderedInsert, hx]
  · simp [get_bracket, List.insertionSort, List.orderedInsert, hx, pyNegIdx,
      not_le.mp hx, le_of_lt (not_le.mp hx)]

/-! ### Corner collection -/

/-- When distinct logg (resp. FeH) values of the candidates are at least
`0.01` apart and a candidate sits exactly at the corner, the tolerance
search of line 201 finds a candidate whose coordinates are exactly the
corner's. -/
theorem findCorner_exact {cands : List ModelRec} {t g z : ℚ}
    (hsepG : ∀ m ∈ cands, ∀ m2 ∈ cands, m.logg ≠ m2.logg →
      1 / 100 ≤ |m.logg - m2.logg|)
    (hsepZ : ∀ m ∈ cands, ∀ m2 ∈ cands, m.feh ≠ m2.feh →
      1 / 100 ≤ |m.feh - m2.feh|)
    (hex : ∃ m0 ∈ cands, m0.teff = t ∧ m0.logg = g ∧ m0.feh = z) :
    ∃ m, findCorner cands t g z = some m ∧ m ∈ cands ∧
      m.teff = t ∧ m.logg = g ∧ m.feh = z := by
  obtain ⟨m0, hm0mem, hm0t, hm0g, hm0z⟩ := hex
  have hmatch : cornerMatch t g z m0 = true := by
    rw [cornerMatch, hm0t, hm0g, hm0z]
    norm_num
  have hsome : (cands.find? (cornerMatch t g z)).isSome :=
    List.find?_isSome.mpr ⟨m0, hm0mem, hmatch⟩
  obtain ⟨m, hfmm⟩ := Option.isSome_iff_exists.mp hsome
  have hmem : m ∈ cands := List.mem_of_find?_eq_some hfmm
  have hm : cornerMatch t g z m = true := List.find?_some hfmm
  rw [cornerMatch] at hm
  simp only [Bool.and_eq_true, decide_eq_true_eq] at hm
  obtain ⟨⟨hmt, hmg⟩, hmz⟩ := hm
  refine ⟨m, hfmm, hmem, hmt, ?_, ?_⟩
  · by_contra hne
    have : m.logg ≠ m0.logg := by rw [hm0g]; exact hne
    have := hsepG m hmem m0 hm0mem this
    rw [hm0g] at this
    exact absurd (lt_of_lt_of_le hmg this) (lt_irrefl _)
  · by_contra hne
    have : m.feh ≠ m0.feh := by rw [hm0z]; exact hne
    have := hsepZ m hmem m0 hm0mem this
    rw [hm0z] at this
    exact absurd (lt_of_lt_of_le hmz this) (lt_irrefl _)

/-- When every corner has a (tolerance) match, the collection loop succeeds
and returns the matched paths in corner order. -/
theorem collectCorners_ok (cands : List ModelRec) :
    ∀ corners : List (ℚ × ℚ × ℚ),
      (∀ c ∈ corners, (findCorner cands c.1 c.2.1 c.2.2).isSome) →
      ∃ ps, collectCorners cands corners = Except.ok ps ∧
        ps.length = corners.length ∧
        ∀ k, k < corners.length → ∃ c m, corners[k]? = some c ∧
          findCorner cands c.1 c.2.1 c.2.2 = some m ∧ ps[k]? = some m.path := by
  intro corners
  induction corners with
  | nil =>
    intro _
    refine ⟨[], rfl, rfl, ?_⟩
    intro k hk
    exact absurd hk (by simp)
  | cons c rest ih =>
    intro hall
    obtain ⟨t, g, z⟩ := c
    obtain ⟨m, hm⟩ := Option.isSome_iff_exists.mp
      (hall (t, g, z) (List.mem_cons_self _ _))
    obtain ⟨ps, hps, hlen, hidx⟩ :=
      ih fun c hc => hall c (List.mem_cons_of_mem _ hc)
    refine ⟨m.path :: ps, ?_, by simp [hlen], ?_⟩
    · simp only [collectCorners, hm, hps]
    · intro k hk
      cases k with
      | zero => exact ⟨(t, g, z), m, by simp, hm, by simp⟩
      | succ k' =>
        obtain ⟨c', m', hc', hm', hp'⟩ := hidx k' (by
          simp only [List.length_cons] at hk
          omega)
        exact ⟨c', m', by simpa using hc', hm', by simpa using hp'⟩

/-- When some corner has no match, the collection loop fails with the FIRST
unmatched corner in corner order. -/
theorem collectCorners_error (cands : List ModelRec) :
    ∀ corners : List (ℚ × ℚ × ℚ),
      (∃ c ∈ corners, findCorner cands c.1 c.2.1 c.2.2 = none) →
      ∃ c, corners.find? (fun c => (findCorner cands c.1 c.2.1 c.2.2).isNone) =
          some c ∧
        collectCorners cands corners =
          Except.error (BracketErr.missingCorner c.1 c.2.1 c.2.2) ∧
        findCorner cands c.1 c.2.1 c.2.2 = none := by
  intro corners
  induction corners with
  | nil => rintro ⟨c, hc, -⟩; exact absurd hc (by simp)
  | cons c rest ih =>
    rintro ⟨c0, hc0, hnone⟩
    obtain ⟨t, g, z⟩ := c
    cases hfc : findCorner cands t g z with
    | none =>
      refine ⟨(t, g, z), ?_, ?_, hfc⟩
      · rw [List.find?_cons_of_pos]
        simp [hfc]
      · simp only [collectCorners, hfc]
    | some m =>
      have hc0rest : c0 ∈ rest := by
        rcases List.mem_cons.mp hc0 with h | h
        · rw [h] at hnone
          rw [hnone] at hfc
          exact Option.noConfusion hfc
        · exact h
      obtain ⟨c', hfind, hcol, hnone'⟩ := ih ⟨c0, hc0rest, hnone⟩
      refine ⟨c', ?_, ?_, hnone'⟩
      · rw [List.find?_cons_of_neg]
        · exact hfind
        · simp [hfc]
      · simp only [collectCorners, hfc, hcol]

/-! ### C1: interior bracketing returns the 8 enclosing corners in order;
edge targets clamp to the two most extreme values -/

/-- C1: for a catalog with at least two distinct values on each axis for the
requested turbulence id (logg and FeH grid values at least `0.01` apart):
(1) whenever `(t1,t2)`, `(g1,g2)`, `(z1,z2)` are the adjacent axis pairs
enclosing the target and all 8 corners have catalog entries,
`find_bracketing_models` returns exactly the 8 corner models' paths,
ordered with Teff outermost, then logg, then FeH;
(2) a target strictly inside an axis always has such an enclosing adjacent
pair, and `get_bracket` returns it;
(3) a target at or below an axis minimum brackets to the two smallest
distinct values — no error; and
(4) a target at or above an axis maximum brackets to the two largest
distinct values — no error. -/
theorem find_bracketing_models_interior_and_clamped
    (available : List ModelRec) (tt tg tz : ℚ) (tturb : String)
    (hsepG : ∀ m ∈ turbCands available tturb, ∀ m2 ∈ turbCands available tturb,
      m.logg ≠ m2.logg → 1 / 100 ≤ |m.logg - m2.logg|)
    (hsepZ : ∀ m ∈ turbCands available tturb, ∀ m2 ∈ turbCands available tturb,
      m.feh ≠ m2.feh → 1 / 100 ≤ |m.feh - m2.feh|)
    (hT : 2 ≤ (teffAxis available tturb).length)
    (hG : 2 ≤ (loggAxis available tturb).length)
    (hZ : 2 ≤ (fehAxis available tturb).length) :
    (∀ t1 t2 g1 g2 z1 z2,
      IsAdjBracket (teffAxis available tturb) tt t1 t2 →
      IsAdjBracket (loggAxis available tturb) tg g1 g2 →
      IsAdjBracket (fehAxis available tturb) tz z1 z2 →
      (∀ c ∈ cornerTriples t1 t2 g1 g2 z1 z2, ∃ m ∈ turbCands available tturb,
        m.teff = c.1 ∧ m.logg = c.2.1 ∧ m.feh = c.2.2) →
      ∃ ps, find_bracketing_models available tt tg tz tturb =
          PyResult.ret (some ps, none) ∧ ps.length = 8 ∧
        ∀ k, k < 8 → ∃ c m, (cornerTriples t1 t2 g1 g2 z1 z2)[k]? = some c ∧
          m ∈ turbCands available tturb ∧ m.teff = c.1 ∧ m.logg = c.2.1 ∧
          m.feh = c.2.2 ∧ ps[k]? = some m.path) ∧
    (∀ V ∈ [teffAxis available tturb, loggAxis available tturb,
        fehAxis available tturb], ∀ x v0 vl,
      V[0]? = some v0 → V[V.length - 1]? = some vl → v0 < x → x < vl →
      ∃ a b, get_bracket V x = some (a, b) ∧ IsAdjBracket V x a b) ∧
    (∀ V ∈ [teffAxis available tturb, loggAxis available tturb,
        fehAxis available tturb], ∀ x v0 v1,
      V[0]? = some v0 → V[1]? = some v1 → x ≤ v0 →
      get_bracket V x = some (v0, v1)) ∧
    (∀ V ∈ [teffAxis available tturb, loggAxis available tturb,
        fehAxis available tturb], ∀ x vp vl,
      V[V.length - 2]? = some vp → V[V.length - 1]? = some vl → vl ≤ x →
      get_bracket V x = some (vp, vl)) := by
  have haxis : ∀ V ∈ [teffAxis available tturb, loggAxis available tturb,
      fehAxis available tturb], V.Sorted (fun a b : ℚ => a ≤ b) ∧ V.Nodup ∧
      2 ≤ V.length := by
    intro V hV
    simp only [List.mem_cons, List.not_mem_nil, or_false] at hV
    rcases hV with h | h | h <;>
      · subst h
        first
        | exact ⟨sortedDistinct_sorted _, sortedDistinct_nodup _, hT⟩
        | exact ⟨sortedDistinct_sorted _, sortedDistinct_nodup _, hG⟩
        | exact ⟨sortedDistinct_sorted _, sortedDistinct_nodup _, hZ⟩
  refine ⟨?_, ?_, ?_, ?_⟩
  · intro t1 t2 g1 g2 z1 z2 hbT hbG hbZ hcorners
    have hne : ¬(turbCands available tturb).isEmpty := by
      intro hc
      rw [List.isEmpty_iff] at hc
      rw [teffAxis, turbCands] at hT
      rw [turbCands] at hc
      rw [hc] at hT
      simp [sortedDistinct, List.insertionSort] at hT
    have heT : get_bracket (teffAxis available tturb) tt = some (t1, t2) :=
      get_bracket_agrees (sortedDistinct_sorted _) (sortedDistinct_nodup _) hbT
    have heG : get_bracket (loggAxis available tturb) tg = some (g1, g2) :=
      get_bracket_agrees (sortedDistinct_sorted _) (sortedDistinct_nodup _) hbG
    have heZ : get_bracket (fehAxis available tturb) tz = some (z1, z2) :=
      get_bracket_agrees (sortedDistinct_sorted _) (sortedDistinct_nodup _) hbZ
    have hallsome : ∀ c ∈ cornerTriples t1 t2 g1 g2 z1 z2,
        (findCorner (turbCands available tturb) c.1 c.2.1 c.2.2).isSome := by
      intro c hc
      obtain ⟨m, hm, -⟩ := findCorner_exact hsepG hsepZ (hcorners c hc)
      rw [hm]
      rfl
    obtain ⟨ps, hcol, hlen, hidx⟩ :=
      collectCorners_ok (turbCands available tturb) _ hallsome
    refine ⟨ps, ?_, by rw [hlen]; rfl, ?_⟩
    · simp only [find_bracketing_models, hne, Bool.false_eq_true, if_false,
        heT, heG, heZ, hcol]
    · intro k hk
      obtain ⟨c, m, hc, hm, hp⟩ := hidx k (by rw [cornerTriples]; simpa using hk)
      have hcmem : c ∈ cornerTriples t1 t2 g1 g2 z1 z2 :=
        List.getElem?_mem hc
      obtain ⟨m', hm', hmem', ht', hg', hz'⟩ :=
        findCorner_exact hsepG hsepZ (hcorners c hcmem)
      have : m = m' := by
        rw [hm] at hm'
        exact Option.some_inj.mp hm'
      subst this
      exact ⟨c, m, hc, hmem', ht', hg', hz', hp⟩
  · intro V hV x v0 vl h0 hl hlow hhigh
    obtain ⟨hs, hnd, h2⟩ := haxis V hV
    exact get_bracket_interior hs h0 hl hlow hhigh
  · intro V hV x v0 v1 h0 h1 hx
    obtain ⟨hs, hnd, h2⟩ := haxis V hV
    exact get_bracket_clamp_low hs h0 h1 hx
  · intro V hV x vp vl hp hl hx
    obtain ⟨hs, hnd, h2⟩ := haxis V hV
    exact get_bracket_clamp_high hs hnd h2 hp hl hx

/-! ### C2: a missing corner aborts with exactly that corner's triple -/

/-- C2: with at least two distinct values on every axis (so the three
brackets are computed), if some corner of the 8-corner cuboid has no
catalog entry for the requested turbulence id, `find_bracketing_models`
returns the `(None, message)` failure naming exactly the first missing
corner's `(Teff, logg, FeH)` triple — and `interpolate` aborts before
invoking the external interpolation tool. -/
theorem find_bracketing_models_missing_corner
    (available : List ModelRec) (tt tg tz : ℚ) (tturb : String)
    (hT : 2 ≤ (teffAxis available tturb).length)
    (hG : 2 ≤ (loggAxis available tturb).length)
    (hZ : 2 ≤ (fehAxis available tturb).length) :
    ∀ t1 t2 g1 g2 z1 z2,
      get_bracket (teffAxis available tturb) tt = some (t1, t2) →
      get_bracket (loggAxis available tturb) tg = some (g1, g2) →
      get_bracket (fehAxis available tturb) tz = some (z1, z2) →
      (∃ c ∈ cornerTriples t1 t2 g1 g2 z1 z2,
        findCorner (turbCands available tturb) c.1 c.2.1 c.2.2 = none) →
      ∃ c, (cornerTriples t1 t2 g1 g2 z1 z2).find?
          (fun c => (findCorner (turbCands available tturb) c.1 c.2.1 c.2.2).isNone) =
          some c ∧
        find_bracketing_models available tt tg tz tturb =
          PyResult.ret (none, some (BracketErr.missingCorner c.1 c.2.1 c.2.2)) ∧
        findCorner (turbCands available tturb) c.1 c.2.1 c.2.2 = none ∧
        interpolate_action available tt tg tz tturb =
          PyResult.ret (InterpAction.abort
            (some (BracketErr.missingCorner c.1 c.2.1 c.2.2))) := by
  intro t1 t2 g1 g2 z1 z2 heT heG heZ hmiss
  have hne : ¬(turbCands available tturb).isEmpty := by
    intro hc
    rw [List.isEmpty_iff] at hc
    rw [teffAxis, turbCands] at hT
    rw [turbCands] at hc
    rw [hc] at hT
    simp [sortedDistinct, List.insertionSort] at hT
  obtain ⟨c, hfind, hcol, hnone⟩ :=
    collectCorners_error (turbCands available tturb) _ hmiss
  have hfbm : find_bracketing_models available tt tg tz tturb =
      PyResult.ret (none, some (BracketErr.missingCorner c.1 c.2.1 c.2.2)) := by
    simp only [find_bracketing_models, hne, Bool.false_eq_true, if_false,
      heT, heG, heZ, hcol]
  refine ⟨c, hfind, hfbm, hnone, ?_⟩
  simp only [interpolate_action, hfbm]

/-! ### C10: fewer than two distinct values on an axis raises -/

/-- C10: when the turbulence-matched candidates are non-empty but some axis
has fewer than two distinct values, `find_bracketing_models` raises an
uncaught `IndexError` inside `get_bracket` (modelled `exc`) instead of
returning a `(models, message)` value like its other failure paths. -/
theorem find_bracketing_models_thin_axis_raises
    (available : List ModelRec) (tt tg tz : ℚ) (tturb : String)
    (hne : turbCands available tturb ≠ [])
    (hlt : (teffAxis available tturb).length < 2 ∨
      (loggAxis available tturb).length < 2 ∨
      (fehAxis available tturb).length < 2) :
    find_bracketing_models available tt tg tz tturb = PyResult.exc := by
  have hnemp : ¬(turbCands available tturb).isEmpty := by
    rw [List.isEmpty_iff]
    exact hne
  obtain ⟨m, hm⟩ := List.exists_mem_of_ne_nil _ hne
  have hax : ∀ f : ModelRec → ℚ,
      0 < (sortedDistinct ((turbCands available tturb).map f)).length := by
    intro f
    refine sortedDistinct_length_pos ?_
    intro hc
    rw [List.map_eq_nil_iff] at hc
    rw [hc] at hm
    exact absurd hm (by simp)
  have hgb : ∀ (l : List ℚ) (x : ℚ), l.length < 2 → 0 < l.length →
      get_bracket l x = none := by
    intro l x hl2 hl0
    exact get_bracket_singleton (by omega) x
  rcases hlt with h | h | h
  · have hnone : get_bracket (teffAxis available tturb) tt = none :=
      hgb _ _ h (hax ModelRec.teff)
    simp only [find_bracketing_models, hnemp, Bool.false_eq_true, if_false, hnone]
  · have hnone : get_bracket (loggAxis available tturb) tg = none :=
      hgb _ _ h (hax ModelRec.logg)
    cases hTb : get_bracket (teffAxis available tturb) tt with
    | none =>
      simp only [find_bracketing_models, hnemp, Bool.false_eq_true, if_false, hTb]
    | some p =>
      obtain ⟨t1, t2⟩ := p
      simp only [find_bracketing_models, hnemp, Bool.false_eq_true, if_false,
        hTb, hnone]
  · have hnone : get_bracket (fehAxis available tturb) tz = none :=
      hgb _ _ h (hax ModelRec.feh)
    cases hTb : get_bracket (teffAxis available tturb) tt with
    | none =>
      simp only [find_bracketing_models, hnemp, Bool.false_eq_true, if_false, hTb]
    | some p =>
      obtain ⟨t1, t2⟩ := p
      cases hGb : get_bracket (loggAxis available tturb) tg with
      | none =>
        simp only [find_bracketing_models, hnemp, Bool.false_eq_true, if_false,
          hTb, hGb]
      | some p2 =>
        obtain ⟨g1, g2⟩ := p2
        simp only [find_bracketing_models, hnemp, Bool.false_eq_true, if_false,
          hTb, hGb, hnone]

/-! ### Concrete catalogs exercising the bracketing theorems -/

/-- An 8-corner synthetic catalog (Teff 5000/6000, logg 0/10, FeH 0/10,
turbulence "01") plus one entry of another turbulence id. -/
def c1Catalog : List ModelRec :=
  [⟨5000, 0, 0, "01", "p000"⟩, ⟨5000, 0, 10, "01", "p001"⟩,
   ⟨5000, 10, 0, "01", "p010"⟩, ⟨5000, 10, 10, "01", "p011"⟩,
   ⟨6000, 0, 0, "01", "p100"⟩, ⟨6000, 0, 10, "01", "p101"⟩,
   ⟨6000, 10, 0, "01", "p110"⟩, ⟨6000, 10, 10, "01", "p111"⟩,
   ⟨5500, 7, 9, "02", "other"⟩]

theorem c1Catalog_sepG : ∀ m ∈ turbCands c1Catalog "01",
    ∀ m2 ∈ turbCands c1Catalog "01", m.logg ≠ m2.logg →
      1 / 100 ≤ |m.logg - m2.logg| := by
  intro m hm m2 hm2 hne
  fin_cases hm <;> fin_cases hm2 <;>
    first
    | exact absurd rfl hne
    | norm_num

theorem c1Catalog_sepZ : ∀ m ∈ turbCands c1Catalog "01",
    ∀ m2 ∈ turbCands c1Catalog "01", m.feh ≠ m2.feh →
      1 / 100 ≤ |m.feh - m2.feh| := by
  intro m hm m2 hm2 hne
  fin_cases hm <;> fin_cases hm2 <;>
    first
    | exact absurd rfl hne
    | norm_num

theorem find_bracketing_models_interior_witness :
    ∃ ps, find_bracketing_models c1Catalog 5500 5 5 "01" =
        PyResult.ret (some ps, none) ∧ ps.length = 8 ∧
      ∀ k, k < 8 → ∃ c m, (cornerTriples 5000 6000 0 10 0 10)[k]? = some c ∧
        m ∈ turbCands c1Catalog "01" ∧ m.teff = c.1 ∧ m.logg = c.2.1 ∧
        m.feh = c.2.2 ∧ ps[k]? = some m.path := by
  have h := find_bracketing_models_interior_and_clamped c1Catalog 5500 5 5 "01"
    c1Catalog_sepG c1Catalog_sepZ (by decide) (by decide) (by decide)
  exact h.1 5000 6000 0 10 0 10 ⟨0, by decide⟩ ⟨0, by decide⟩ ⟨0, by decide⟩
    (by decide)

/-- The catalog of `c1Catalog` with the `(6000, 10, 10)` corner removed. -/
def c2Catalog : List ModelRec :=
  [⟨5000, 0, 0, "01", "p000"⟩, ⟨5000, 0, 10, "01", "p001"⟩,
   ⟨5000, 10, 0, "01", "p010"⟩, ⟨5000, 10, 10, "01", "p011"⟩,
   ⟨6000, 0, 0, "01", "p100"⟩, ⟨6000, 0, 10, "01", "p101"⟩,
   ⟨6000, 10, 0, "01", "p110"⟩]

theorem find_bracketing_models_missing_corner_witness :
    ∃ c, (cornerTriples 5000 6000 0 10 0 10).find?
        (fun c => (findCorner (turbCands c2Catalog "01") c.1 c.2.1 c.2.2).isNone) =
        some c ∧
      find_bracketing_models c2Catalog 5500 5 5 "01" =
        PyResult.ret (none, some (BracketErr.missingCorner c.1 c.2.1 c.2.2)) ∧
      findCorner (turbCands c2Catalog "01") c.1 c.2.1 c.2.2 = none ∧
      interpolate_action c2Catalog 5500 5 5 "01" =
        PyResult.ret (InterpAction.abort
          (some (BracketErr.missingCorner c.1 c.2.1 c.2.2))) := by
  have hmiss : findCorner (turbCands c2Catalog "01") 6000 10 10 = none := by
    rw [findCorner, List.find?_eq_none]
    intro m hm
    fin_cases hm <;>
      · rw [cornerMatch]
        norm_num
  exact find_bracketing_models_missing_corner c2Catalog 5500 5 5 "01"
    (by decide) (by decide) (by decide) 5000 6000 0 10 0 10
    (by decide) (by decide) (by decide)
    ⟨(6000, 10, 10), by decide, hmiss⟩

/-- A catalog with a single distinct Teff value for turbulence "01". -/
def c10Catalog : List ModelRec :=
  [⟨5000, 0, 0, "01", "q0"⟩, ⟨5000, 10, 10, "01", "q1"⟩]

theorem find_bracketing_models_thin_axis_raises_witness :
    find_bracketing_models c10Catalog 5500 5 5 "01" = PyResult.exc :=
  find_bracketing_models_thin_axis_raises c10Catalog 5500 5 5 "01"
    (by decide) (Or.inl (by decide))

/-! ## `scripts/generate_grid.py` — `_sample_parameter_space` -/

/-- `itertools.product(*values_only)`: the Cartesian product of the value
lists in declared parameter order, the last list varying fastest. -/
def pyProduct {α : Type} : List (List α) → List (List α)
  | [] => [[]]
  | vs :: rest => vs.flatMap fun v => (pyProduct rest).map fun tail => v :: tail

/-- The `method == 'full'` branch (lines 79–81):
`return islice(combos, max_rows) if max_rows else combos`.  Python
truthiness: both `None` and `0` leave the product untruncated. -/
def sample_full {α : Type} (ls : List (List α)) (max_rows : Option ℕ) :
    List (List α) :=
  match max_rows with
  | none => pyProduct ls
  | some k => if k = 0 then pyProduct ls else (pyProduct ls).take k

theorem pyProduct_length {α : Type} :
    ∀ ls : List (List α), (pyProduct ls).length = (ls.map List.length).prod := by
  intro ls
  induction ls with
  | nil => rfl
  | cons vs rest ih =>
    rw [show pyProduct (vs :: rest) =
        vs.flatMap (fun v => (pyProduct rest).map fun tail => v :: tail) from rfl]
    rw [List.length_flatMap]
    have hfun : (List.length ∘ fun v : α =>
        (pyProduct rest).map fun tail => v :: tail) =
        Function.const α (pyProduct rest).length := by
      funext v
      simp [Function.const]
    rw [hfun, List.map_const, List.sum_replicate, smul_eq_mul, List.map_cons,
      List.prod_cons, ih]

/-- Indexing a `flatMap` whose chunks share the length `L`. -/
theorem flatMap_uniform_getElem {α β : Type} (f : α → List β) (L : ℕ)
    (hL0 : 0 < L) :
    ∀ (vs : List α), (∀ v ∈ vs, (f v).length = L) →
      ∀ i, i < vs.length * L →
        ∃ v, vs[i / L]? = some v ∧ (vs.flatMap f)[i]? = (f v)[i % L]? := by
  intro vs
  induction vs with
  | nil => intro _ i hi; simp at hi
  | cons v rest ih =>
    intro hL i hi
    rw [List.flatMap_cons]
    have hfv : (f v).length = L := hL v (List.mem_cons_self _ _)
    by_cases hiL : i < L
    · refine ⟨v, ?_, ?_⟩
      · rw [Nat.div_eq_of_lt hiL]
        simp
      · rw [List.getElem?_append_left (by rw [hfv]; exact hiL),
          Nat.mod_eq_of_lt hiL]
    · have hij : i = (i - L) + L := by omega
      have hrest : i - L < rest.length * L := by
        have : (v :: rest).length * L = rest.length * L + L := by
          simp [List.length_cons, Nat.succ_mul]
        rw [this] at hi
        omega
      obtain ⟨w, hw1, hw2⟩ :=
        ih (fun u hu => hL u (List.mem_cons_of_mem _ hu)) (i - L) hrest
      refine ⟨w, ?_, ?_⟩
      · rw [hij, Nat.add_div_right _ hL0, List.getElem?_cons_succ]
        exact hw1
      · rw [List.getElem?_append_right (by rw [hfv]; omega), hfv, hw2]
        congr 1
        conv_rhs => rw [hij]
        rw [Nat.add_mod_right]

theorem pyProduct_single {α : Type} (C : List α) :
    pyProduct [C] = C.map fun v => [v] := by
  show C.flatMap (fun v => (pyProduct []).map fun tail => v :: tail) = _
  rw [show pyProduct ([] : List (List α)) = [[]] from rfl]
  induction C with
  | nil => rfl
  | cons c rest ih => simp_all

/-- C7 counterexample: with `max_rows = 0` (a set value, `0 < a*b*c`), the
code returns the full product (length 2 here), not the first `0` tuples —
Python truthiness treats `0` like an absent `max_rows`. -/
theorem sample_full_max_rows_zero :
    (sample_full [[0], [1], [2, 3]] (some 0)).length = 2 ∧ (0 : ℕ) < 1 * (1 * 2) ∧
      ((pyProduct [[(0 : ℕ)], [1], [2, 3]]).take 0).length = 0 := by
  refine ⟨rfl, by norm_num, rfl⟩

/-- C7 (amended): for value lists `A`, `B`, `C` in declared order, the
`full` sampling with no `max_rows` yields exactly
`A.length * B.length * C.length` tuples in Cartesian order with the last
parameter varying fastest (tuple `i` is
`[A[i / (|B|*|C|)], B[(i / |C|) % |B|], C[i % |C|]]`), and any set
`max_rows = k ≥ 1` yields exactly the first `k` tuples of that same
deterministic order. -/
theorem sample_full_cartesian {α : Type} (A B C : List α) (i k : ℕ)
    (hi : i < A.length * (B.length * C.length)) (hk : 1 ≤ k) :
    (sample_full [A, B, C] none).length = A.length * (B.length * C.length) ∧
      (∃ a b c, A[i / (B.length * C.length)]? = some a ∧
        B[(i / C.length) % B.length]? = some b ∧ C[i % C.length]? = some c ∧
        (sample_full [A, B, C] none)[i]? = some [a, b, c]) ∧
      sample_full [A, B, C] (some k) = (sample_full [A, B, C] none).take k := by
  have hBC : (pyProduct [B, C]).length = B.length * C.length := by
    rw [pyProduct_length]
    simp [List.prod_cons]
  have hC : (pyProduct [C]).length = C.length := by
    rw [pyProduct_length]
    simp
  have hlen : (sample_full [A, B, C] none).length =
      A.length * (B.length * C.length) := by
    show (pyProduct [A, B, C]).length = _
    rw [pyProduct_length]
    simp [List.prod_cons, Nat.mul_assoc]
  refine ⟨hlen, ?_, ?_⟩
  · have hBC0 : 0 < B.length * C.length := by
      rcases Nat.eq_zero_or_pos (B.length * C.length) with h | h
      · rw [h, Nat.mul_zero] at hi
        exact absurd hi (by simp)
      · exact h
    have hC0 : 0 < C.length := by
      rcases Nat.eq_zero_or_pos C.length with h | h
      · rw [h, Nat.mul_zero] at hBC0
        exact absurd hBC0 (by simp)
      · exact h
    -- level 1: split off the A coordinate
    obtain ⟨a, ha, hrw⟩ := flatMap_uniform_getElem
      (fun v => (pyProduct [B, C]).map fun tail => v :: tail)
      (B.length * C.length) hBC0 A
      (fun v _ => by rw [List.length_map, hBC]) i hi
    -- level 2: split off the B coordinate
    obtain ⟨b, hb, hrw2⟩ := flatMap_uniform_getElem
      (fun v => (pyProduct [C]).map fun tail => v :: tail)
      C.length hC0 B (fun v _ => by rw [List.length_map, hC])
      (i % (B.length * C.length)) (Nat.mod_lt _ hBC0)
    have hmod2 : i % (B.length * C.length) % C.length < C.length :=
      Nat.mod_lt _ hC0
    -- level 3: the C coordinate
    have hCidx : i % (B.length * C.length) % C.length = i % C.length :=
      Nat.mod_mod_of_dvd i (dvd_mul_left C.length B.length)
    have hBidx : i % (B.length * C.length) / C.length = i / C.length % B.length := by
      rw [Nat.mul_comm B.length C.length]
      exact Nat.mod_mul_right_div_self i C.length B.length
    have hc : ∃ c, C[i % C.length]? = some c := by
      have : i % C.length < C.length := Nat.mod_lt _ hC0
      exact ⟨C[i % C.length], List.getElem?_eq_getElem this⟩
    obtain ⟨c, hcC⟩ := hc
    refine ⟨a, b, c, ha, ?_, hcC, ?_⟩
    · rw [← hBidx]
      exact hb
    · show (pyProduct [A, B, C])[i]? = _
      have hstep : (pyProduct [A, B, C])[i]? =
          ((pyProduct [B, C]).map fun tail => a :: tail)[i % (B.length * C.length)]? := by
        exact hrw
      rw [hstep, List.getElem?_map]
      have hstep2 : (pyProduct [B, C])[i % (B.length * C.length)]? =
          ((pyProduct [C]).map fun tail => b :: tail)[i % (B.length * C.length) % C.length]? := by
        exact hrw2
      rw [hstep2, List.getElem?_map, pyProduct_single, List.getElem?_map,
        hCidx, hcC]
      rfl
  · show sample_full [A, B, C] (some k) = (pyProduct [A, B, C]).take k
    rw [sample_full, if_neg (by omega)]

/-- Witness for the amended C7, with value lists of sizes 2, 1, 3,
`i = 4` (tuple `[11, 20, 31]`) and `k = 2`. -/
theorem sample_full_cartesian_witness :
    ((4 : ℕ) < 2 * (1 * 3) ∧ (1 : ℕ) ≤ 2) ∧
      ((sample_full [[10, 11], [20], [30, 31, 32]] none).length = 2 * (1 * 3) ∧
        (∃ a b c, [10, 11][4 / (1 * 3)]? = some a ∧
          [20][(4 / 3) % 1]? = some b ∧ [(30 : ℕ), 31, 32][4 % 3]? = some c ∧
          (sample_full [[10, 11], [20], [30, 31, 32]] none)[4]? = some [a, b, c]) ∧
        sample_full [[10, 11], [20], [30, 31, 32]] (some 2) =
          (sample_full [[(10 : ℕ), 11], [20], [30, 31, 32]] none).take 2) := by
  have hlens : ([[(10 : ℕ), 11], [20], [30, 31, 32]] : List (List ℕ)).map
      List.length = [2, 1, 3] := rfl
  refine ⟨⟨by norm_num, by norm_num⟩, ?_⟩
  have h := sample_full_cartesian [(10 : ℕ), 11] [20] [30, 31, 32] 4 2
    (by norm_num) (by norm_num)
  simpa using h

/-! ### C8: latin-hypercube value frequency -/

/-- `np.tile(np.arange(len(values)), repeats)[:max_rows]` with
`repeats = ceil(max_rows / len(values))` (lines 95–96): the index cycle
`0, …, n-1, 0, …` truncated to `N` entries.  (`ceil` is exact on these
integers; `n = 0` raises in Python and is excluded by the theorems'
hypotheses.) -/
def latinBase (n N : ℕ) : List ℕ :=
  ((List.replicate ((N + n - 1) / n) (List.range n)).flatten).take N

/-- One parameter's column of the latin-hypercube sample (lines 92–103):
row `r` holds `values[base_indices[perm[r]]]`, where `perm` is the random
permutation of `range N` drawn for this parameter
(`rng.permutation(max_rows)`).  The permutation is passed in explicitly;
every theorem below holds for an arbitrary permutation, hence for the
seeded one the code draws.  Out-of-range reads (impossible for a
permutation of `range N`) fall back to `default`/index `0` where Python
would raise. -/
def lhsColumn {α : Type} [Inhabited α] (values : List α) (N : ℕ)
    (perm : List ℕ) : List α :=
  perm.map fun p => values.getD ((latinBase values.length N).getD p 0) default

theorem flatten_replicate_range (n : ℕ) (hn : 0 < n) :
    ∀ r : ℕ, (List.replicate r (List.range n)).flatten =
      (List.range (r * n)).map (· % n) := by
  intro r
  induction r with
  | zero => simp
  | succ r ih =>
    rw [List.replicate_succ, List.flatten_cons, ih, Nat.succ_mul,
      Nat.add_comm (r * n) n, List.range_add, List.map_append]
    congr 1
    · have : ∀ x ∈ List.range n, x % n = x := fun x hx =>
        Nat.mod_eq_of_lt (List.mem_range.mp hx)
      rw [List.map_congr_left this, List.map_id']
    · rw [List.map_map]
      refine List.map_congr_left fun x _ => ?_
      exact (Nat.add_mod_left n x).symm

theorem ceil_mul_ge (n N : ℕ) (hn : 0 < n) : N ≤ (N + n - 1) / n * n := by
  have h := Nat.div_add_mod (N + n - 1) n
  have hr : (N + n - 1) % n < n := Nat.mod_lt _ hn
  rw [Nat.mul_comm]
  set m := n * ((N + n - 1) / n) with hm
  omega

theorem latinBase_eq (n N : ℕ) (hn : 0 < n) :
    latinBase n N = (List.range N).map (· % n) := by
  rw [latinBase, flatten_replicate_range n hn, ← List.map_take,
    List.take_range, Nat.min_eq_left (ceil_mul_ge n N hn)]

theorem count_range_map_mod (n : ℕ) (hn : 0 < n) (x : ℕ) (hxn : x < n) :
    ∀ N : ℕ, ((List.range N).map (· % n)).count x =
      N / n + (if x < N % n then 1 else 0) := by
  intro N
  induction N with
  | zero =>
    simp [Nat.zero_div, Nat.zero_mod]
  | succ N ih =>
    rw [List.range_succ, List.map_append, List.count_append, ih]
    have hd := Nat.div_add_mod N n
    have hr : N % n < n := Nat.mod_lt _ hn
    have hcnt : List.count x [N % n] = if N % n = x then 1 else 0 := by
      rw [List.count_singleton]
      by_cases h : N % n = x <;> simp [h]
    by_cases hrn : N % n + 1 = n
    · have heq : N + 1 = n * (N / n + 1) := by
        have e : n * (N / n + 1) = n * (N / n) + n := by ring
        rw [e]
        set m := n * (N / n) with hm
        omega
      have hsd : (N + 1) / n = N / n + 1 := by
        rw [heq, Nat.mul_div_cancel_left _ hn]
      have hsm : (N + 1) % n = 0 := by
        rw [heq, Nat.mul_mod_right]
      rw [List.map_singleton, hcnt, hsd, hsm]
      by_cases hx : N % n = x
      · have h1 : ¬x < N % n := by omega
        simp [hx, h1]
      · have h1 : x < N % n := by omega
        simp [hx, h1]
    · have heq : N + 1 = (N % n + 1) + n * (N / n) := by
        set m := n * (N / n) with hm
        omega
      have hsd : (N + 1) / n = N / n := by
        rw [heq, Nat.add_mul_div_left _ _ hn, Nat.div_eq_of_lt (by omega),
          Nat.zero_add]
      have hsm : (N + 1) % n = N % n + 1 := by
        rw [heq, Nat.add_mul_mod_self_left, Nat.mod_eq_of_lt (by omega)]
      rw [List.map_singleton, hcnt, hsd, hsm]
      by_cases hx : N % n = x
      · have h1 : ¬x < N % n := by omega
        have h2 : x < N % n + 1 := by omega
        simp [hx, h1, h2]
      · by_cases hlt : x < N % n
        · have h2 : x < N % n + 1 := by omega
          simp [hx, hlt, h2]
        · have h2 : ¬x < N % n + 1 := by omega
          simp [hx, hlt, h2]

theorem ceilDiv_of_mod_ne (n N : ℕ) (hn : 0 < n) (hr : N % n ≠ 0) :
    (N + n - 1) / n = N / n + 1 := by
  have h := Nat.div_add_mod N n
  have hrn : N % n < n := Nat.mod_lt _ hn
  have key : N + n - 1 = (N % n - 1) + (N / n + 1) * n := by
    have e : (N / n + 1) * n = N / n * n + n := by ring
    rw [e]
    have e2 : N / n * n = n * (N / n) := Nat.mul_comm _ _
    rw [e2]
    set m := n * (N / n) with hm
    omega
  rw [key, Nat.add_mul_div_right _ _ hn, Nat.div_eq_of_lt (by omega),
    Nat.zero_add]

theorem ceilDiv_of_mod_eq (n N : ℕ) (hn : 0 < n) (hr : N % n = 0) :
    (N + n - 1) / n = N / n := by
  have h := Nat.div_add_mod N n
  have key : N + n - 1 = (n - 1) + n * (N / n) := by
    set m := n * (N / n) with hm
    omega
  rw [key, Nat.mul_comm, Nat.add_mul_div_right _ _ hn,
    Nat.div_eq_of_lt (by omega), Nat.zero_add]

/-- C8: for any permutation of `range N` (in particular the seeded one the
code draws), every element of a duplicate-free value list appears in its
latin-hypercube column either `⌊N/|values|⌋` or `⌈N/|values|⌉` times. -/
theorem lhsColumn_value_frequency {α : Type} [DecidableEq α] [Inhabited α]
    (values : List α) (N : ℕ) (perm : List ℕ) (v : α)
    (hperm : perm.Perm (List.range N)) (hnd : values.Nodup)
    (hv : v ∈ values) :
    (lhsColumn values N perm).count v = N / values.length ∨
      (lhsColumn values N perm).count v =
        (N + values.length - 1) / values.length := by
  have hn0 : 0 < values.length := List.length_pos_of_mem hv
  obtain ⟨iv, hivlt, hiv⟩ := List.mem_iff_getElem.mp hv
  -- the column is a permutation of the unshuffled assignment
  have hcnt1 : (lhsColumn values N perm).count v =
      ((List.range N).map fun p =>
        values.getD ((latinBase values.length N).getD p 0) default).count v :=
    (hperm.map _).count_eq v
  -- on `range N` the assignment reads the value at index `p % n`
  have hread : ∀ p ∈ List.range N,
      values.getD ((latinBase values.length N).getD p 0) default =
        values.getD (p % values.length) default := by
    intro p hp
    have hpN : p < N := List.mem_range.mp hp
    have hbase : (latinBase values.length N).getD p 0 = p % values.length := by
      rw [latinBase_eq values.length N hn0, List.getD_eq_getElem?_getD,
        List.getElem?_map]
      rw [List.getElem?_eq_getElem (by simpa using hpN)]
      simp
    rw [hbase]
  rw [hcnt1, List.map_congr_left hread]
  -- count positions whose index-mod equals the (unique) index of `v`
  have hstep : ((List.range N).map fun p =>
      values.getD (p % values.length) default).count v =
      ((List.range N).map (· % values.length)).count iv := by
    rw [List.count_eq_countP, List.count_eq_countP, List.countP_map,
      List.countP_map]
    refine List.countP_congr fun p hp => ?_
    simp only [Function.comp_apply]
    have hplt : p % values.length < values.length := Nat.mod_lt _ hn0
    rw [List.getD_eq_getElem values default hplt, beq_iff_eq, beq_iff_eq, ← hiv]
    exact List.Nodup.getElem_inj_iff hnd
  rw [hstep, count_range_map_mod values.length hn0 iv hivlt N]
  by_cases hlt : iv < N % values.length
  · right
    rw [if_pos hlt, ceilDiv_of_mod_ne values.length N hn0 (by omega)]
  · left
    rw [if_neg hlt, Nat.add_zero]

/-- Witness: three distinct values, `N = 4` rows, the permutation
`[2,0,3,1]` of `range 4`: the value `10` appears `2 = ⌈4/3⌉` times. -/
theorem lhsColumn_value_frequency_witness :
    ([2, 0, 3, 1] : List ℕ).Perm (List.range 4) ∧
      ((lhsColumn [10, 20, 30] 4 [2, 0, 3, 1]).count 10 = 4 / 3 ∨
        (lhsColumn [10, 20, 30] 4 [2, 0, 3, 1]).count 10 = (4 + 3 - 1) / 3) := by
  refine ⟨by decide, ?_⟩
  exact lhsColumn_value_frequency [10, 20, 30] 4 [2, 0, 3, 1] 10
    (by decide) (by decide) (by decide)

/-! ## `scripts/run_turbospectrum.py` — `run_single_synthesis` skip gate -/

/-- Python's `f"{q:+.1f}"` / `f"{q:+.2f}"`: sign, integer part, and
`decimals` fractional digits of the rounding of `q` to that many places.
(Python rounds ties to even; this model rounds ties up — the two agree on
every value exactly representable at the target precision, which is what
the grid uses.) -/
def fmtSignDec (decimals : ℕ) (q : ℚ) : String :=
  let scale : ℤ := (10 : ℤ) ^ decimals
  let n : ℤ := round (q * (scale : ℚ))
  let sign := if n < 0 then "-" else "+"
  let a := n.natAbs
  let digits := toString (a % 10 ^ decimals)
  sign ++ toString (a / 10 ^ decimals) ++ "." ++
    String.mk (List.replicate (decimals - digits.length) '0') ++ digits

/-- The filename of `get_model_filename` (lines 114–122) without its
`.mod` extension — what `run_single_synthesis` recovers as `base_name`
via `os.path.splitext`. -/
def model_base_name (teff : ℤ) (logg feh : ℚ) (turb : String) : String :=
  "p" ++ toString teff ++ "_g" ++ fmtSignDec 1 logg ++ "_m0.0_t" ++ turb ++
    "_st_z" ++ fmtSignDec 2 feh ++
    "_a+0.00_c+0.00_n+0.00_o+0.00_r+0.00_s+0.00"

/-- `get_model_filename` (lines 114–122). -/
def get_model_filename (teff : ℤ) (logg feh : ℚ) (turb : String) : String :=
  model_base_name teff logg feh turb ++ ".mod"

/-- `os.path.join` for a directory given without a trailing separator. -/
def pyPathJoin (a b : String) : String := a ++ "/" ++ b

/-- `expected_outputs` of lines 281–285: one `.intensity.spec` file when
`calculate_intensity` is set, otherwise one `.spec` file. -/
def expectedOutputs (calculate_intensity : Bool) (output_dir : String)
    (teff : ℤ) (logg feh : ℚ) (turb : String) : List String :=
  if calculate_intensity then
    [pyPathJoin output_dir (model_base_name teff logg feh turb ++ ".intensity.spec")]
  else
    [pyPathJoin output_dir (model_base_name teff logg feh turb ++ ".spec")]

/-- Whether `run_single_synthesis` returns at the skip gate or continues
into model acquisition and the two-stage execution. -/
inductive SkipDecision where
  | skipped
  | proceed
deriving DecidableEq

/-- The skip gate of `run_single_synthesis` (lines 280–294).  Everything
before this point in the source is pure path/string computation (no file
writes, no subprocess); the first side effect — catalog scan, log-file
write, subprocess — comes after, so `skipped` is returned with no
subprocess invoked and no file written.  `fileExists` abstracts
`os.path.exists` over an unchanging filesystem. -/
def run_single_skip (calculate_intensity force : Bool) (output_dir : String)
    (teff : ℤ) (logg feh : ℚ) (turb : String) (fileExists : String → Bool) :
    SkipDecision :=
  let expected := expectedOutputs calculate_intensity output_dir teff logg feh turb
  if force = false then
    if expected.all fileExists then SkipDecision.skipped
    else SkipDecision.proceed
  else SkipDecision.proceed

/-- C9: the expected-output list is the single mode-dependent file; with
the force flag unset and every expected output existing, the run is
skipped (before any subprocess or file write); with the force flag set it
proceeds to the two-stage execution. -/
theorem run_single_skip_semantics (ci force : Bool) (od : String)
    (teff : ℤ) (logg feh : ℚ) (turb : String) (fexists : String → Bool) :
    (expectedOutputs ci od teff logg feh turb).length = 1 ∧
      (ci = true → expectedOutputs ci od teff logg feh turb =
        [pyPathJoin od (model_base_name teff logg feh turb ++ ".intensity.spec")]) ∧
      (ci = false → expectedOutputs ci od teff logg feh turb =
        [pyPathJoin od (model_base_name teff logg feh turb ++ ".spec")]) ∧
      (force = false →
        (∀ p ∈ expectedOutputs ci od teff logg feh turb, fexists p = true) →
        run_single_skip ci force od teff logg feh turb fexists =
          SkipDecision.skipped) ∧
      (force = true →
        run_single_skip ci force od teff logg feh turb fexists =
          SkipDecision.proceed) := by
  refine ⟨?_, ?_, ?_, ?_, ?_⟩
  · cases ci <;> simp [expectedOutputs]
  · intro h
    subst h
    simp [expectedOutputs]
  · intro h
    subst h
    simp [expectedOutputs]
  · intro hf hall
    subst hf
    have : (expectedOutputs ci od teff logg feh turb).all fexists = true :=
      List.all_eq_true.mpr hall
    simp [run_single_skip, this]
  · intro hf
    subst hf
    simp [run_single_skip]

/-- C9 witness: Flux mode, force unset, every file reported existing ⇒
skipped; force set (under a filesystem with no files) ⇒ proceeds. -/
theorem run_single_skip_semantics_witness :
    run_single_skip false false "out" 5000 4 0 "01" (fun _ => true) =
        SkipDecision.skipped ∧
      run_single_skip false true "out" 5000 4 0 "01" (fun _ => false) =
        SkipDecision.proceed := by
  constructor
  · exact (run_single_skip_semantics false false "out" 5000 4 0 "01"
      (fun _ => true)).2.2.2.1 rfl (fun p _ => rfl)
  · exact (run_single_skip_semantics false true "out" 5000 4 0 "01"
      (fun _ => false)).2.2.2.2 rfl

end TurboSpec
